import Mathlib

/-!
# Verification of the share-file.online transport engine

Shallow embedding of the browser-to-browser file transfer engine:
the signal codec (base32 / base64url + optional gzip + prefixed strings),
the SDP host-candidate rewrite, the rendezvous self-echo filter, the
binary file-frame parser, the sender chunking loop with its backpressure
watermarks, the outgoing-cancel notification logic, and the receiver's
per-`seq` reassembly state machine.

Machine integers stay `Nat` (the JS values involved are all non-negative
and well below 2^32 where it matters; `DataView.getUint32` reads are
modelled as big-endian byte recombination).  Browser built-ins that the
source calls (`String.prototype.trim`, `String.prototype.split`,
`JSON.stringify` / `JSON.parse` on the fixed signal schema, UTF-8
encoding via `Blob`/`Response`, gzip via `CompressionStream`) are
modelled explicitly; gzip itself is kept abstract as a function pair
that the round-trip theorem takes as a hypothesis.
-/

namespace ShareFile

/-! ## JavaScript string primitives -/

/-- Whitespace recognised by `String.prototype.trim` (restricted to the
ASCII whitespace code points, which are the only ones this code base's
data can contain). -/
def jsWhitespace (c : Char) : Bool :=
  c = ' ' || c = '\t' || c = '\n' || c = '\r' || c = Char.ofNat 11 || c = Char.ofNat 12

/-- `String.prototype.trim` on a character list: drop whitespace from both ends. -/
def jsTrimList (cs : List Char) : List Char :=
  List.rdropWhile jsWhitespace (cs.dropWhile jsWhitespace)

/-- `String.prototype.trim`. -/
def jsTrim (s : String) : String :=
  ⟨jsTrimList s.data⟩

theorem dropWhile_rdropWhile_dropWhile (p : Char → Bool) (l : List Char) :
    List.dropWhile p (List.rdropWhile p (List.dropWhile p l))
      = List.rdropWhile p (List.dropWhile p l) := by
  rw [List.dropWhile_eq_self_iff]
  intro hl
  obtain ⟨t, ht⟩ := List.rdropWhile_prefix p (List.dropWhile p l)
  have hxne : List.rdropWhile p (List.dropWhile p l) ≠ [] := List.ne_nil_of_length_pos hl
  have hane : List.dropWhile p l ≠ [] := by
    intro hc
    apply hxne
    rw [hc]
    exact List.rdropWhile_nil p
  have hq : (List.dropWhile p l).head? = (List.rdropWhile p (List.dropWhile p l)).head? := by
    conv_lhs => rw [← ht]
    exact List.head?_append_of_ne_nil _ hxne
  rw [List.head?_eq_head hane, List.head?_eq_head hxne, Option.some_inj] at hq
  have hget : (List.rdropWhile p (List.dropWhile p l)).get ⟨0, hl⟩
      = (List.rdropWhile p (List.dropWhile p l)).head hxne := by
    rw [List.get_eq_getElem, List.head_eq_getElem_zero hxne]
  rw [hget, ← hq]
  simp [List.head_dropWhile_not p l hane]

theorem jsTrimList_idem (cs : List Char) : jsTrimList (jsTrimList cs) = jsTrimList cs := by
  unfold jsTrimList
  rw [dropWhile_rdropWhile_dropWhile, List.rdropWhile_idempotent]

theorem jsTrim_idem (s : String) : jsTrim (jsTrim s) = jsTrim s := by
  simp [jsTrim, jsTrimList_idem]

/-- A string all of whose characters are non-whitespace is untouched by trim. -/
theorem jsTrimList_eq_self (cs : List Char) (h : ∀ c ∈ cs, jsWhitespace c = false) :
    jsTrimList cs = cs := by
  unfold jsTrimList
  have h1 : List.dropWhile jsWhitespace cs = cs := by
    rw [List.dropWhile_eq_self_iff]
    intro hl
    simp [h _ (List.getElem_mem hl)]
  have h2 : List.rdropWhile jsWhitespace cs = cs := by
    rw [List.rdropWhile_eq_self_iff]
    intro hl
    simp [h _ (List.getLast_mem hl)]
  rw [h1, h2]

/-- `String.prototype.split` with a single-character separator, on char lists. -/
def jsSplitChar (sep : Char) : List Char → List (List Char)
  | [] => [[]]
  | c :: rest =>
    let r := jsSplitChar sep rest
    if c = sep then [] :: r
    else
      match r with
      | [] => [[c]]
      | h :: t => (c :: h) :: t

/-- `String.prototype.split` with a single-character separator. -/
def jsSplit (sep : Char) (s : String) : List String :=
  (jsSplitChar sep s.data).map (fun l => ⟨l⟩)

/-- Does `pat` occur as a contiguous substring of `cs`? -/
def listContainsSub (pat : List Char) : List Char → Bool
  | [] => List.isPrefixOf pat []
  | c :: rest => List.isPrefixOf pat (c :: rest) || listContainsSub pat rest

/-- Substring containment, modelling `String.prototype.includes`. -/
def jsIncludes (s pat : String) : Bool :=
  listContainsSub pat.data s.data

/-- `String.prototype.startsWith`. -/
def jsStartsWith (s pat : String) : Bool :=
  List.isPrefixOf pat.data s.data

/-- `String.prototype.endsWith`. -/
def jsEndsWith (s pat : String) : Bool :=
  List.isSuffixOf pat.data s.data

/-- `Array.prototype.join(sep)` over decomposed strings. -/
def listIntercalate (sep : List Char) : List (List Char) → List Char
  | [] => []
  | [x] => x
  | x :: y :: rest => x ++ sep ++ listIntercalate sep (y :: rest)

/-- `Array.prototype.join(sep)`. -/
def jsJoin (sep : String) (parts : List String) : String :=
  ⟨listIntercalate sep.data (parts.map String.data)⟩

/-- `split(/\r?\n/)`: split on LF, then strip one trailing CR from each piece. -/
def jsSplitLines (s : String) : List String :=
  (jsSplit '\n' s).map (fun t =>
    if jsEndsWith t "\r" then ⟨t.data.take (t.data.length - 1)⟩ else t)

/-! ## isValidIpv4 / normalizeLanIpOverride / rewriteMdnsHostCandidatesInSdp
(src/src/webrtc/peerClient.js lines 151-194) -/

/-- One dotted part: matches `/^\d{1,3}$/` and `Number(p) ≤ 255`
(`Number(p) ≥ 0` is automatic for digit strings). -/
def ipv4PartOk (p : String) : Bool :=
  decide (1 ≤ p.data.length) && decide (p.data.length ≤ 3)
    && p.data.all (fun c => c.isDigit)
    && decide (p.data.foldl (fun acc c => acc * 10 + (c.toNat - 48)) 0 ≤ 255)

/-- `isValidIpv4` from the source: trim, split on ".", exactly four parts,
each a 1-3 digit run with value at most 255. -/
def isValidIpv4 (ip : String) : Bool :=
  let s := jsTrim ip
  if s = "" then false
  else decide ((jsSplit '.' s).length = 4) && (jsSplit '.' s).all ipv4PartOk

/-- `normalizeLanIpOverride`: the trimmed value when it is a valid IPv4, else `""`. -/
def normalizeLanIpOverride (value : String) : String :=
  let s := jsTrim value
  if s = "" then ""
  else if isValidIpv4 s then s else ""

/-- Rewrite of one SDP line: replace the 5th space-separated token by `ip` when
the line is an `a=candidate:` line of type `host` whose address ends in `.local`.
Returns the (possibly rewritten) line and whether it changed. -/
def rewriteCandidateLine (ip line : String) : String × Bool :=
  if ¬ (jsStartsWith line "a=candidate:" = true) then (line, false)
  else if ¬ (jsIncludes line " typ host" = true) then (line, false)
  else
    let parts := jsSplit ' ' line
    if parts.length < 6 then (line, false)
    else
      let addr := parts.getD 4 ""
      if addr = "" ∨ ¬ (jsEndsWith addr ".local" = true) then (line, false)
      else (jsJoin " " (parts.set 4 ip), true)

/-- `rewriteMdnsHostCandidatesInSdp`: no-op unless the override normalizes to a
valid IPv4; otherwise rewrite matching candidate lines and re-join with the
original separator, returning the original text when nothing changed. -/
def rewriteMdnsHostCandidatesInSdp (sdp ipv4 : String) : String :=
  let ip := normalizeLanIpOverride ipv4
  if ip = "" then sdp
  else if sdp = "" then sdp
  else
    let sep := if jsIncludes sdp "\r\n" then "\r\n" else "\n"
    let results := (jsSplitLines sdp).map (rewriteCandidateLine ip)
    if results.any (fun r => r.2) then jsJoin sep (results.map (fun r => r.1))
    else sdp

theorem isValidIpv4_jsTrim (ip : String) : isValidIpv4 (jsTrim ip) = isValidIpv4 ip := by
  unfold isValidIpv4
  rw [jsTrim_idem]

theorem normalizeLanIpOverride_eq_empty (ip : String) (h : isValidIpv4 ip = false) :
    normalizeLanIpOverride ip = "" := by
  unfold normalizeLanIpOverride
  by_cases hs : jsTrim ip = ""
  · simp [hs]
  · simp only [hs, if_false]
    rw [isValidIpv4_jsTrim, h]
    simp

/-- C8: rewriting host candidates with an override that is absent (empty) or not
a valid IPv4 address returns the session description unchanged, byte for byte. -/
theorem rewriteMdnsHostCandidatesInSdp_invalid_identity (sdp ip : String)
    (h : isValidIpv4 ip = false) :
    rewriteMdnsHostCandidatesInSdp sdp ip = sdp := by
  unfold rewriteMdnsHostCandidatesInSdp
  simp [normalizeLanIpOverride_eq_empty ip h]

/-- Witness for C8 at a concrete invalid override and an SDP with a rewritable
candidate line: the result is byte-identical. -/
theorem rewriteMdnsHostCandidatesInSdp_invalid_identity_witness :
    isValidIpv4 "999.0.0.1" = false ∧
      rewriteMdnsHostCandidatesInSdp
        "v=0\na=candidate:1 1 udp 2 abc.local 9 typ host" "999.0.0.1"
        = "v=0\na=candidate:1 1 udp 2 abc.local 9 typ host" := by
  refine ⟨by decide, ?_⟩
  exact rewriteMdnsHostCandidatesInSdp_invalid_identity _ _ (by decide)

/-! ## Rendezvous self-echo filter (src/src/services/signaling.js lines 47-54) -/

/-- The broadcast handler's delivery decision: for a bus payload
`\x7bsenderId, dataStr\x7d` (absent/falsy fields modelled as `""`), return the
`dataStr` handed to `onMessage`, or `none` when the frame is dropped. -/
def onBroadcastDeliver (clientId senderId dataStr : String) : Option String :=
  if dataStr = "" then none
  else if senderId ≠ "" ∧ senderId = clientId then none
  else some dataStr

/-- C9: with a non-empty client id (as `makeClientId` always produces), a bus
payload whose `senderId` equals the client's own id is never delivered, and
every payload with a different `senderId` and non-empty `dataStr` is delivered
unchanged. -/
theorem onBroadcastDeliver_self_echo (clientId senderId dataStr : String)
    (hcid : clientId ≠ "") :
    (senderId = clientId → onBroadcastDeliver clientId senderId dataStr = none) ∧
    (senderId ≠ clientId → dataStr ≠ "" →
      onBroadcastDeliver clientId senderId dataStr = some dataStr) := by
  constructor
  · intro hs
    unfold onBroadcastDeliver
    by_cases hd : dataStr = ""
    · simp [hd]
    · simp [hd, hs, hcid]
  · intro hs hd
    unfold onBroadcastDeliver
    simp only [hd, if_false]
    rw [if_neg]
    intro hc
    exact hs hc.2

/-- Witness for C9 at concrete ids and payloads. -/
theorem onBroadcastDeliver_self_echo_witness :
    (onBroadcastDeliver "cid1" "cid1" "hello" = none) ∧
      (onBroadcastDeliver "cid1" "cid2" "hello" = some "hello") :=
  ⟨(onBroadcastDeliver_self_echo "cid1" "cid1" "hello" (by decide)).1 rfl,
   (onBroadcastDeliver_self_echo "cid1" "cid2" "hello" (by decide)).2 (by decide) (by decide)⟩

/-! ## File-frame parsing (PeerClient.handleFileFrame,
src/src/webrtc/peerClient.js lines 837-878) -/

/-- A message arriving on a data channel: a JS string, or binary data
(Blob / ArrayBuffer / typed-array view) modelled as its byte list.
The Blob and ArrayBuffer code paths in the source compute the same
`(seq, len, payload)` from the same bytes, so one byte-level model covers both. -/
inductive DcMessage where
  | str : String → DcMessage
  | bin : List Nat → DcMessage
deriving DecidableEq

/-- The `file-chunk` event handed to `onData`. -/
structure FileChunkEvent where
  streamId : String
  seq : Nat
  data : List Nat
deriving DecidableEq

/-- `DataView.getUint32(off)` (big-endian) over a byte list. -/
def beUint32At (bytes : List Nat) (off : Nat) : Nat :=
  bytes.getD off 0 * 16777216 + bytes.getD (off + 1) 0 * 65536
    + bytes.getD (off + 2) 0 * 256 + bytes.getD (off + 3) 0

def FILE_FRAME_HEADER_BYTES : Nat := 8

/-- `PeerClient.handleFileFrame`: strings are ignored; binary messages shorter
than the 8-byte header are ignored; otherwise read big-endian `(seq, declaredLen)`,
let `payloadLen` be the trailing byte count, use `declaredLen` when it is non-zero
and within the trailing bytes (else all trailing bytes), and emit a `file-chunk`. -/
def handleFileFrame (id : String) (data : DcMessage) : Option FileChunkEvent :=
  match data with
  | .str _ => none
  | .bin bytes =>
    if bytes.length < FILE_FRAME_HEADER_BYTES then none
    else
      let seq := beUint32At bytes 0
      let declaredLen := beUint32At bytes 4
      let payloadLen := bytes.length - FILE_FRAME_HEADER_BYTES
      let len := if declaredLen ≠ 0 ∧ declaredLen ≤ payloadLen then declaredLen else payloadLen
      some ⟨id, seq, (bytes.drop FILE_FRAME_HEADER_BYTES).take len⟩

/-- C10: any string message on a file channel, and any binary message shorter
than the 8-byte header, is silently discarded: no `file-chunk` event is emitted,
no error is raised, and no transfer state is touched. -/
theorem handleFileFrame_discards (id : String) (data : DcMessage)
    (h : (∃ s, data = DcMessage.str s) ∨
      ∃ bytes, data = DcMessage.bin bytes ∧ bytes.length < 8) :
    handleFileFrame id data = none := by
  rcases h with ⟨s, rfl⟩ | ⟨bytes, rfl, hlen⟩
  · rfl
  · simp only [handleFileFrame, FILE_FRAME_HEADER_BYTES]
    rw [if_pos hlen]

/-- Witness for C10: a concrete string message (longer than 8 bytes) and a
concrete short binary message are both discarded. -/
theorem handleFileFrame_discards_witness :
    handleFileFrame "sid" (DcMessage.str "0123456789abc") = none ∧
      handleFileFrame "sid" (DcMessage.bin [1, 2, 3, 4, 5, 6, 7]) = none :=
  ⟨handleFileFrame_discards "sid" _ (Or.inl ⟨_, rfl⟩),
   handleFileFrame_discards "sid" _ (Or.inr ⟨_, rfl, by decide⟩)⟩

/-- C4 counterexample: a frame whose declared `len` is `0` but which carries 3
trailing bytes.  The code emits all 3 trailing bytes as payload, while the claim
(`payload = next min(len, trailing) bytes`) demands `min 0 3 = 0` bytes. -/
theorem handleFileFrame_declaredLen_zero_counterexample :
    handleFileFrame "s" (DcMessage.bin [0, 0, 0, 0, 0, 0, 0, 0, 1, 2, 3])
        = some ⟨"s", 0, [1, 2, 3]⟩ ∧
      (min 0 3 : Nat) ≠ 3 := by
  constructor
  · rfl
  · decide

/-- C4 (amended): for a binary message of at least 8 bytes the receiver parses
big-endian `(seq, len)` from the first 8 bytes and takes the next
`min(len, trailing)` bytes as payload when `len ≠ 0`, but takes all trailing
bytes when `len = 0`. -/
theorem handleFileFrame_parses (id : String) (bytes : List Nat)
    (h : 8 ≤ bytes.length) :
    handleFileFrame id (DcMessage.bin bytes)
      = some ⟨id, beUint32At bytes 0,
          (bytes.drop 8).take
            (if beUint32At bytes 4 = 0 then bytes.length - 8
             else min (beUint32At bytes 4) (bytes.length - 8))⟩ := by
  have hlen_eq :
      (if beUint32At bytes 4 ≠ 0 ∧ beUint32At bytes 4 ≤ bytes.length - 8
        then beUint32At bytes 4 else bytes.length - 8)
      = (if beUint32At bytes 4 = 0 then bytes.length - 8
         else min (beUint32At bytes 4) (bytes.length - 8)) := by
    by_cases hd : beUint32At bytes 4 = 0
    · simp [hd]
    · by_cases hle : beUint32At bytes 4 ≤ bytes.length - 8
      · simp [hd, hle, Nat.min_eq_left hle]
      · simp [hd, hle, Nat.min_eq_right (Nat.le_of_not_le hle)]
  simp only [handleFileFrame, FILE_FRAME_HEADER_BYTES]
  rw [if_neg (by omega), hlen_eq]

/-- Witness for C4's amended theorem at a concrete frame
(`seq = 1`, declared `len = 2`, 3 trailing bytes). -/
theorem handleFileFrame_parses_witness :
    handleFileFrame "s" (DcMessage.bin [0, 0, 0, 1, 0, 0, 0, 2, 9, 8, 7])
      = some ⟨"s", 1, [9, 8]⟩ := by
  have h := handleFileFrame_parses "s" [0, 0, 0, 1, 0, 0, 0, 2, 9, 8, 7] (by decide)
  simpa using h

/-! ## Sender chunk sizing and backpressure watermarks
(src/src/webrtc/peerClient.js lines 10, 196-207; src/unnamed/part_000 lines 284-294, 526-531, 716-738) -/

def FILE_CHUNK_SIZE : Nat := 256 * 1024

/-- `getSendChunkSize`: clamp the 256 KiB target to the transport's max message
size when one is exposed (`maxMessageSize = 0` models "none"), subtract the
frame-header overhead, floor at 1 byte. -/
def getSendChunkSize (maxMessageSize overheadBytes : Nat) : Nat :=
  let base := if maxMessageSize ≠ 0 then min FILE_CHUNK_SIZE maxMessageSize else FILE_CHUNK_SIZE
  max 1 (base - overheadBytes)

/-- `DC_BUFFER_HIGH_WATER_MARK` by device-memory tier (GiB). -/
def dcBufferHighWaterMark (memGB : Nat) : Nat :=
  if 8 ≤ memGB then 64 * 1024 * 1024
  else if 4 ≤ memGB then 32 * 1024 * 1024
  else if 0 < memGB ∧ memGB < 2 then 8 * 1024 * 1024
  else 16 * 1024 * 1024

/-- `minHighWaterMark` in `sendFileChunks`: `max(1 MiB, payloadChunkSize * 4)`. -/
def minHighWaterMarkOf (payloadChunkSize : Nat) : Nat :=
  max (1024 * 1024) (payloadChunkSize * 4)

/-- The initial per-channel `highWaterMark` in `sendFileChunks`. -/
def initialHighWaterMark (payloadChunkSize channelCount dcHigh : Nat) : Nat :=
  let minH := minHighWaterMarkOf payloadChunkSize
  let total := max dcHigh (minH * channelCount)
  max minH (total / channelCount)

/-- The `highWaterMark` update applied when `dc.send` throws a
"send queue is full" error: `max(minHighWaterMark, ⌊high / 2⌋)`. -/
def queueFullNewHigh (payloadChunkSize high : Nat) : Nat :=
  max (minHighWaterMarkOf payloadChunkSize) (high / 2)

/-- The matching `lowWaterMark` recomputation: `max(512 KiB, ⌊high / 4⌋)`. -/
def queueFullNewLow (high : Nat) : Nat :=
  max (512 * 1024) (high / 4)

/-- C6 counterexample: with the default chunk size (no transport max message
size, 8-byte header) and 2 stripes on a 16 MiB default budget, the initial high
watermark is 8 MiB; three queue-full events bring it to the 1 MiB floor, and the
fourth queue-full event leaves it at 1 MiB — strictly above the claimed bound
`previous/2 + chunkSize = 786 424`. -/
theorem queueFullNewHigh_counterexample :
    queueFullNewHigh (getSendChunkSize 0 8)
        (queueFullNewHigh (getSendChunkSize 0 8)
          (queueFullNewHigh (getSendChunkSize 0 8)
            (queueFullNewHigh (getSendChunkSize 0 8)
              (initialHighWaterMark (getSendChunkSize 0 8) 2 (dcBufferHighWaterMark 0)))))
      > (queueFullNewHigh (getSendChunkSize 0 8)
          (queueFullNewHigh (getSendChunkSize 0 8)
            (queueFullNewHigh (getSendChunkSize 0 8)
              (initialHighWaterMark (getSendChunkSize 0 8) 2 (dcBufferHighWaterMark 0))))) / 2
        + getSendChunkSize 0 8 := by
  decide

/-- C6 (amended): after any QueueFull send error the updated high watermark
equals `max(max(1 MiB, 4·chunkSize), ⌊previous/2⌋)`; hence it is at least 1 MiB
and at most the larger of `⌊previous/2⌋` and `max(1 MiB, 4·chunkSize)` (the
claimed bound `previous/2 + chunkSize` fails once the floor is reached). -/
theorem queueFullNewHigh_bounds (payloadChunkSize high : Nat) :
    1024 * 1024 ≤ queueFullNewHigh payloadChunkSize high ∧
      queueFullNewHigh payloadChunkSize high
        ≤ max (high / 2) (max (1024 * 1024) (payloadChunkSize * 4)) := by
  unfold queueFullNewHigh minHighWaterMarkOf
  constructor
  · exact le_trans (Nat.le_max_left _ _) (Nat.le_max_left _ _)
  · rw [Nat.max_comm]

/-! ## Outgoing-transfer cancellation (cancelOutgoingFile,
src/unnamed/part_000 lines 428-471, 296-356) -/

/-- The per-transfer record in `outgoingTransfers`: whether `file-meta`
has already been sent (line 306 creates it with `metaSent: false`; line 334
flips it right after the meta message is written). -/
structure OutgoingTransferState where
  metaSent : Bool
deriving DecidableEq

/-- Whether `cancelOutgoingFile` emits a `file-cancel` control message, as a
function of the transfer's registration state, the queue flag, the
`notifyPeer` option and whether the control channel is open.  Mirrors the
control flow of lines 428-471: the early "pending" return, then the active
branch (send iff `notifyPeer && state.metaSent && dc open`), then the
queued-only branch which never sends. -/
def cancelOutgoingSendsFileCancel (active : Option OutgoingTransferState)
    (queued notifyPeer dcOpen : Bool) : Bool :=
  if active.isNone && !queued then false
  else
    match active with
    | some st => notifyPeer && st.metaSent && dcOpen
    | none => false

/-- C7 counterexample: cancelling an active outgoing transfer whose `file-meta`
was already sent, while the control channel is not open, does not emit
`file-cancel` — although the claim's "iff meta sent" requires it. -/
theorem cancelOutgoingSendsFileCancel_counterexample :
    ¬ (cancelOutgoingSendsFileCancel (some ⟨true⟩) false true false
        = (OutgoingTransferState.mk true).metaSent) := by
  decide

/-- C7 (amended): cancelling an outgoing transfer emits `file-cancel` to the
peer iff the transfer is still registered as active, its `file-meta` had been
sent, the cancel requests peer notification (peer-initiated cancels pass
`notifyPeer = false`), and the control channel is open. -/
theorem cancelOutgoingSendsFileCancel_iff (active : Option OutgoingTransferState)
    (queued notifyPeer dcOpen : Bool) :
    cancelOutgoingSendsFileCancel active queued notifyPeer dcOpen = true
      ↔ ∃ st, active = some st ∧ st.metaSent = true ∧ notifyPeer = true ∧ dcOpen = true := by
  cases active with
  | none =>
    cases queued <;> simp [cancelOutgoingSendsFileCancel]
  | some st =>
    cases queued <;>
      simp [cancelOutgoingSendsFileCancel, and_assoc, and_comm, and_left_comm]

/-! ## Sender chunking loop (sendFileChunks,
src/unnamed/part_000 lines 513-772) -/

/-- One data frame successfully written by the sender: sequence number and the
byte range `[start, stop)` of the file it carries.  On the wire this is
`header(seq, stop-start) ‖ bytes[start..stop)`. -/
structure SendFrame where
  seq : Nat
  start : Nat
  stop : Nat
deriving DecidableEq

/-- The main chunking loop: while `offset < size`, emit a frame for
`[offset, min(offset + chunkSize, size))` and advance.  A queue-full send
throws before `offset`/`seq` advance, so retries re-send the same frame and the
successful-frame sequence is unaffected; the backpressure waits and the time
budget do not alter it either.  Totalized with fuel: `size` iterations always
suffice because every iteration advances `offset` by at least one byte when
`chunkSize ≥ 1`. -/
def sendChunkLoop (size chunkSize : Nat) : Nat → Nat → Nat → List SendFrame
  | 0, _, _ => []
  | fuel + 1, offset, seq =>
    if offset < size then
      ⟨seq, offset, min (offset + chunkSize) size⟩
        :: sendChunkLoop size chunkSize fuel (min (offset + chunkSize) size) (seq + 1)
    else []

/-- The data frames `sendFileChunks` writes for a file of `size` bytes:
the dedicated `size === 0` branch emits the single `(0, 0, ∅)` frame on the
first open channel; otherwise the chunking loop runs from
`offset = 0, seq = 0`. -/
def sendFileFrames (size chunkSize : Nat) : List SendFrame :=
  if size = 0 then [⟨0, 0, 0⟩]
  else sendChunkLoop size chunkSize size 0 0

theorem sendChunkLoop_spec (size chunkSize : Nat) (hC : 1 ≤ chunkSize) :
    ∀ fuel seq, size - seq * chunkSize ≤ fuel →
      sendChunkLoop size chunkSize fuel (seq * chunkSize) seq
        = (List.range ((size - seq * chunkSize + chunkSize - 1) / chunkSize)).map
            (fun i => ⟨seq + i, (seq + i) * chunkSize, min ((seq + i + 1) * chunkSize) size⟩) := by
  intro fuel
  induction fuel with
  | zero =>
    intro seq hle
    have hz : size - seq * chunkSize = 0 := Nat.le_zero.mp hle
    rw [hz, Nat.div_eq_of_lt (by omega)]
    rfl
  | succ fuel ih =>
    intro seq hle
    have hnext : (seq + 1) * chunkSize = seq * chunkSize + chunkSize := by ring
    by_cases hlt : seq * chunkSize < size
    · simp only [sendChunkLoop]
      rw [if_pos hlt]
      rcases le_or_lt (seq * chunkSize + chunkSize) size with hcase | hcase
      · -- a full chunk fits: the next offset is (seq+1)·chunkSize
        have hmin : min (seq * chunkSize + chunkSize) size = seq * chunkSize + chunkSize :=
          Nat.min_eq_left hcase
        have hfuel : size - (seq + 1) * chunkSize ≤ fuel := by omega
        rw [hmin, ← hnext, ih (seq + 1) hfuel]
        have hd : (size - seq * chunkSize + chunkSize - 1) / chunkSize
            = (size - (seq + 1) * chunkSize + chunkSize - 1) / chunkSize + 1 := by
          have h1 : size - seq * chunkSize + chunkSize - 1
              = (size - (seq + 1) * chunkSize + chunkSize - 1) + chunkSize := by omega
          rw [h1, Nat.add_div_right _ (by omega)]
        rw [hd, List.range_succ_eq_map, List.map_cons, List.map_map]
        congr 1
        · have hle2 : (seq + 1) * chunkSize ≤ size := by omega
          simp [Nat.min_eq_left hle2]
        · apply List.map_congr_left
          intro i _
          simp only [Function.comp, Nat.succ_eq_add_one]
          have h1 : seq + 1 + i = seq + (i + 1) := by omega
          rw [h1]
      · -- final partial chunk: the next offset is size and the loop stops
        have hmin : min (seq * chunkSize + chunkSize) size = size :=
          Nat.min_eq_right (by omega)
        rw [hmin]
        have hstop : sendChunkLoop size chunkSize fuel size (seq + 1) = [] := by
          cases fuel with
          | zero => rfl
          | succ f =>
            simp only [sendChunkLoop]
            rw [if_neg (by omega)]
        rw [hstop]
        have hm : (size - seq * chunkSize + chunkSize - 1) / chunkSize = 1 := by
          apply Nat.div_eq_of_lt_le
          · omega
          · omega
        rw [hm]
        have hmin2 : min ((seq + 0 + 1) * chunkSize) size = size := by
          rw [Nat.min_eq_right]
          have h2 : (seq + 0 + 1) * chunkSize = seq * chunkSize + chunkSize := by ring
          omega
        have hr1 : List.range 1 = [0] := rfl
        simp [hr1, hmin2]
    · simp only [sendChunkLoop]
      rw [if_neg hlt]
      have hz : size - seq * chunkSize = 0 := by omega
      rw [hz, Nat.div_eq_of_lt (by omega)]
      rfl

/-- C5: with a positive payload chunk size `C` (as `getSendChunkSize` always
produces), a file of size `S > 0` yields exactly `⌈S/C⌉` data frames with
sequence numbers `0, 1, …, ⌈S/C⌉-1`, frame `i` carrying the bytes
`[i·C, min((i+1)·C, S))`; a file of size `0` yields exactly the single frame
`(seq 0, bytes [0,0))`, which the dedicated empty-file branch writes on the
first open channel. -/
theorem sendFileFrames_spec (size chunkSize : Nat) (hC : 1 ≤ chunkSize) :
    (0 < size → sendFileFrames size chunkSize
        = (List.range ((size + chunkSize - 1) / chunkSize)).map
            (fun i => ⟨i, i * chunkSize, min ((i + 1) * chunkSize) size⟩)) ∧
    sendFileFrames 0 chunkSize = [⟨0, 0, 0⟩] := by
  constructor
  · intro hS
    unfold sendFileFrames
    rw [if_neg (by omega)]
    have h := sendChunkLoop_spec size chunkSize hC size 0 (by simp)
    simpa using h
  · rfl

/-- Witness for C5 at `chunkSize = 262136` (the default 256 KiB minus the
8-byte header) and `size = 2·chunkSize + 1`: exactly three data frames, with
seqs 0, 1, 2 and the spec'd byte ranges; plus the empty-file frame. -/
theorem sendFileFrames_spec_witness :
    sendFileFrames 524273 262136
        = [⟨0, 0, 262136⟩, ⟨1, 262136, 524272⟩, ⟨2, 524272, 524273⟩] ∧
      sendFileFrames 0 262136 = [⟨0, 0, 0⟩] := by
  have h := sendFileFrames_spec 524273 262136 (by omega)
  refine ⟨?_, (sendFileFrames_spec 0 262136 (by omega)).2⟩
  rw [h.1 (by omega)]
  rfl

/-! ## Receiver reassembly state machine (the `file-chunk` branch of
`onPeerData`, src/unnamed/part_000 lines 1901-1988)

The gating checks of lines 1902-1926 (a registered, accepted, non-cancelled
transfer with a writer, a stream id matching the transfer's base, a
non-negative integer `seq`) are the claims' own preconditions ("on a matching
stream after acceptance"); the model below embeds the reassembly core that
runs once those gates pass. `pendingChunks` is a JS `Map<seq, chunk>`,
modelled as an insertion-ordered association list with unique keys
(`set` is only called when `has` is false). -/

/-- A received chunk: payload bytes.  `IncomingState` is the part of the
incoming-transfer record the reassembly logic touches. -/
structure IncomingState where
  expectedSeq : Nat
  pendingChunks : List (Nat × List Nat)
  received : Nat
  sink : List (List Nat)
deriving DecidableEq

/-- `Map.prototype.get`/`has` lookup on the association-list model. -/
def mapLookup : List (Nat × List Nat) → Nat → Option (List Nat)
  | [], _ => none
  | p :: rest, k => if k = p.1 then some p.2 else mapLookup rest k

/-- `Map.prototype.set` under the source's `if (!has(seq)) set(seq, chunk)`. -/
def mapInsertIfAbsent (m : List (Nat × List Nat)) (k : Nat) (v : List Nat) :
    List (Nat × List Nat) :=
  if (mapLookup m k).isSome then m else m ++ [(k, v)]

/-- `Map.prototype.delete`. -/
def mapErase : List (Nat × List Nat) → Nat → List (Nat × List Nat)
  | [], _ => []
  | p :: rest, k => if p.1 = k then mapErase rest k else p :: mapErase rest k

theorem mapLookup_mem : ∀ {m : List (Nat × List Nat)} {k : Nat} {v : List Nat},
    mapLookup m k = some v → (k, v) ∈ m := by
  intro m
  induction m with
  | nil => intro k v h; simp [mapLookup] at h
  | cons p rest ih =>
    intro k v h
    rw [mapLookup] at h
    by_cases hk : k = p.1
    · rw [if_pos hk] at h
      obtain rfl := Option.some_inj.mp h
      rw [hk]
      exact List.mem_cons_self _ _
    · rw [if_neg hk] at h
      exact List.mem_cons_of_mem _ (ih h)

theorem mapErase_length_le (m : List (Nat × List Nat)) (k : Nat) :
    (mapErase m k).length ≤ m.length := by
  induction m with
  | nil => simp [mapErase]
  | cons p rest ih =>
    rw [mapErase]
    split_ifs <;> simp only [List.length_cons] <;> omega

theorem mapErase_length_lt : ∀ {m : List (Nat × List Nat)} {k : Nat} {v : List Nat},
    mapLookup m k = some v → (mapErase m k).length < m.length := by
  intro m
  induction m with
  | nil => intro k v h; simp [mapLookup] at h
  | cons p rest ih =>
    intro k v h
    rw [mapLookup] at h
    rw [mapErase]
    by_cases hk : p.1 = k
    · rw [if_pos hk]
      have := mapErase_length_le rest k
      simp only [List.length_cons]
      omega
    · rw [if_neg hk]
      rw [if_neg (fun hc => hk hc.symm)] at h
      have := ih h
      simp only [List.length_cons]
      omega

theorem mapErase_lookup_self : ∀ (m : List (Nat × List Nat)) (k : Nat),
    mapLookup (mapErase m k) k = none := by
  intro m k
  induction m with
  | nil => rfl
  | cons p rest ih =>
    rw [mapErase]
    by_cases hpk : p.1 = k
    · rw [if_pos hpk]
      exact ih
    · rw [if_neg hpk, mapLookup, if_neg (fun hc => hpk hc.symm)]
      exact ih

theorem mem_mapErase : ∀ {m : List (Nat × List Nat)} {k : Nat} {p : Nat × List Nat},
    p ∈ mapErase m k ↔ p ∈ m ∧ p.1 ≠ k := by
  intro m k p
  induction m with
  | nil => simp [mapErase]
  | cons q rest ih =>
    rw [mapErase]
    by_cases hqk : q.1 = k
    · rw [if_pos hqk, ih, List.mem_cons]
      constructor
      · rintro ⟨hp, hne⟩
        exact ⟨Or.inr hp, hne⟩
      · rintro ⟨hq | hp, hne⟩
        · exact absurd (hq ▸ hqk) hne
        · exact ⟨hp, hne⟩
    · rw [if_neg hqk]
      rw [List.mem_cons, ih, List.mem_cons]
      constructor
      · rintro (rfl | ⟨hp, hne⟩)
        · exact ⟨Or.inl rfl, hqk⟩
        · exact ⟨Or.inr hp, hne⟩
      · rintro ⟨rfl | hp, hne⟩
        · exact Or.inl rfl
        · exact Or.inr ⟨hp, hne⟩

/-- `commitChunk` (lines 1928-1939): zero-length chunks are not written and do
not change `received`; otherwise the bytes are queued for the sink (or the
in-memory list) and `received` grows by the chunk length. -/
def commitChunk (st : IncomingState) (chunk : List Nat) : IncomingState :=
  if chunk.length = 0 then st
  else { st with sink := st.sink ++ [chunk], received := st.received + chunk.length }

/-- The drain loop of lines 1949-1954: while `pendingChunks` holds
`expectedSeq`, take it out, commit it, and advance.  Totalized with fuel; the
pending map's size always suffices because every iteration deletes one entry.
Returns the final state and the `(seq, chunk)` pairs committed, in order. -/
def drainPending : Nat → IncomingState → IncomingState × List (Nat × List Nat)
  | 0, st => (st, [])
  | fuel + 1, st =>
    match mapLookup st.pendingChunks st.expectedSeq with
    | none => (st, [])
    | some chunk =>
      let st1 := commitChunk
        { st with pendingChunks := mapErase st.pendingChunks st.expectedSeq } chunk
      let st2 := { st1 with expectedSeq := st.expectedSeq + 1 }
      let r := drainPending fuel st2
      (r.1, (st.expectedSeq, chunk) :: r.2)

/-- The reassembly step for one `file-chunk` message (lines 1941-1954):
`seq < expectedSeq` drops, `seq > expectedSeq` buffers (only when absent),
`seq = expectedSeq` commits, advances, and drains all contiguous buffered
successors.  Returns the new state and the `(seq, chunk)` pairs committed
by this step, in commit order. -/
def handleFileChunkMsg (st : IncomingState) (seq : Nat) (chunk : List Nat) :
    IncomingState × List (Nat × List Nat) :=
  if seq < st.expectedSeq then (st, [])
  else if seq > st.expectedSeq then
    ({ st with pendingChunks := mapInsertIfAbsent st.pendingChunks seq chunk }, [])
  else
    let st1 := commitChunk st chunk
    let st2 := { st1 with expectedSeq := st.expectedSeq + 1 }
    -- the drain loop's fuel: the buffer's size (committing does not touch it)
    let r := drainPending st.pendingChunks.length st2
    (r.1, (seq, chunk) :: r.2)

/-- Fold `handleFileChunkMsg` over a list of arriving `(seq, chunk)` messages,
concatenating the commit traces. -/
def processArrivals (st : IncomingState) : List (Nat × List Nat) →
    IncomingState × List (Nat × List Nat)
  | [] => (st, [])
  | (seq, chunk) :: rest =>
    let r1 := handleFileChunkMsg st seq chunk
    let r2 := processArrivals r1.1 rest
    (r2.1, r1.2 ++ r2.2)

/-- The fresh incoming-transfer state created by the `file-meta` handler
(lines 1852-1877): `received: 0, expectedSeq: 0, pendingChunks: new Map()`. -/
def initialIncomingState : IncomingState :=
  ⟨0, [], 0, []⟩

/-- The `file-done` emission condition of line 1972: `received >= size`. -/
def emitsFileDone (st : IncomingState) (size : Nat) : Bool :=
  decide (size ≤ st.received)

/-- The `seq` values of a commit trace, in commit order. -/
def traceSeqs (tr : List (Nat × List Nat)) : List Nat :=
  tr.map Prod.fst

/-- Total bytes of a commit trace. -/
def traceBytes (tr : List (Nat × List Nat)) : Nat :=
  (tr.map (fun q => q.2.length)).sum

theorem mapLookup_none_keys : ∀ {m : List (Nat × List Nat)} {k : Nat},
    mapLookup m k = none → ∀ p ∈ m, p.1 ≠ k := by
  intro m
  induction m with
  | nil => intro k _ p hp; simp at hp
  | cons q rest ih =>
    intro k h p hp
    rw [mapLookup] at h
    by_cases hk : k = q.1
    · rw [if_pos hk] at h
      exact absurd h (by simp)
    · rw [if_neg hk] at h
      rcases List.mem_cons.mp hp with rfl | hp2
      · exact fun hc => hk hc.symm
      · exact ih h p hp2

@[simp] theorem commitChunk_expectedSeq (st : IncomingState) (c : List Nat) :
    (commitChunk st c).expectedSeq = st.expectedSeq := by
  unfold commitChunk
  split_ifs <;> rfl

@[simp] theorem commitChunk_pendingChunks (st : IncomingState) (c : List Nat) :
    (commitChunk st c).pendingChunks = st.pendingChunks := by
  unfold commitChunk
  split_ifs <;> rfl

theorem commitChunk_received (st : IncomingState) (c : List Nat) :
    (commitChunk st c).received = st.received + c.length := by
  unfold commitChunk
  split_ifs with h
  · simp [h]
  · rfl

theorem commitChunk_sink (st : IncomingState) (c : List Nat) :
    (commitChunk st c).sink = st.sink ++ if c.length = 0 then [] else [c] := by
  unfold commitChunk
  split_ifs with h <;> simp

/-- Everything the drain loop guarantees, given enough fuel and the entry
invariant that all buffered keys are at least `expectedSeq`:
the cursor only advances; the commits are exactly the consecutive seqs
`expectedSeq, …, expectedSeq'-1` in order; the surviving buffer holds only
keys strictly above the new cursor; the buffer only shrinks, and keeps every
entry at or above the new cursor; commits come from the buffer; and `received`
and the sink grow by exactly the committed bytes. -/
theorem drainPending_spec : ∀ (fuel : Nat) (st : IncomingState),
    st.pendingChunks.length ≤ fuel →
    (∀ p ∈ st.pendingChunks, st.expectedSeq ≤ p.1) →
    st.expectedSeq ≤ (drainPending fuel st).1.expectedSeq ∧
    traceSeqs (drainPending fuel st).2
      = List.range' st.expectedSeq ((drainPending fuel st).1.expectedSeq - st.expectedSeq) ∧
    (∀ p ∈ (drainPending fuel st).1.pendingChunks, (drainPending fuel st).1.expectedSeq < p.1) ∧
    (∀ p ∈ (drainPending fuel st).1.pendingChunks, p ∈ st.pendingChunks) ∧
    (∀ p ∈ st.pendingChunks, (drainPending fuel st).1.expectedSeq ≤ p.1 →
        p ∈ (drainPending fuel st).1.pendingChunks) ∧
    (∀ q ∈ (drainPending fuel st).2, q ∈ st.pendingChunks) ∧
    (drainPending fuel st).1.received = st.received + traceBytes (drainPending fuel st).2 ∧
    (drainPending fuel st).1.sink
      = st.sink ++ ((drainPending fuel st).2.map Prod.snd).filter (fun c => c.length ≠ 0) := by
  intro fuel
  induction fuel with
  | zero =>
    intro st hfuel hkeys
    have hnil : st.pendingChunks = [] := List.length_eq_zero.mp (Nat.le_zero.mp hfuel)
    refine ⟨Nat.le_refl _, by simp [drainPending, traceSeqs], ?_, ?_, ?_, ?_, ?_, ?_⟩ <;>
      simp [drainPending, hnil, traceBytes]
  | succ fuel ih =>
    intro st hfuel hkeys
    cases hl : mapLookup st.pendingChunks st.expectedSeq with
    | none =>
      have hdrain : drainPending (fuel + 1) st = (st, []) := by
        simp only [drainPending, hl]
      rw [hdrain]
      have hkeys2 := mapLookup_none_keys hl
      refine ⟨Nat.le_refl _, by simp [traceSeqs], ?_, ?_, ?_, ?_, ?_, ?_⟩
      · intro p hp
        exact Nat.lt_of_le_of_ne (hkeys p hp) (fun hc => hkeys2 p hp hc.symm)
      · intro p hp
        exact hp
      · intro p hp _
        exact hp
      · intro q hq
        simp at hq
      · simp [traceBytes]
      · simp
    | some chunk =>
      set st2 : IncomingState :=
        { commitChunk { st with pendingChunks := mapErase st.pendingChunks st.expectedSeq } chunk
            with expectedSeq := st.expectedSeq + 1 } with hst2
      have hdrain : drainPending (fuel + 1) st
          = ((drainPending fuel st2).1, (st.expectedSeq, chunk) :: (drainPending fuel st2).2) := by
        simp only [drainPending, hl]
      have hst2e : st2.expectedSeq = st.expectedSeq + 1 := rfl
      have hst2p : st2.pendingChunks = mapErase st.pendingChunks st.expectedSeq := by
        rw [hst2]
        simp
      have hst2r : st2.received = st.received + chunk.length := by
        rw [hst2]
        simp [commitChunk_received]
      have hst2s : st2.sink = st.sink ++ if chunk.length = 0 then [] else [chunk] := by
        rw [hst2]
        simp [commitChunk_sink]
      have hfuel2 : st2.pendingChunks.length ≤ fuel := by
        rw [hst2p]
        have := mapErase_length_lt hl
        omega
      have hkeys2 : ∀ p ∈ st2.pendingChunks, st2.expectedSeq ≤ p.1 := by
        intro p hp
        rw [hst2p] at hp
        obtain ⟨hp2, hne⟩ := mem_mapErase.mp hp
        have := hkeys p hp2
        rw [hst2e]
        omega
      obtain ⟨ih1, ih2, ih3, ih4, ih5, ih6, ih7, ih8⟩ := ih st2 hfuel2 hkeys2
      have ih1' : st.expectedSeq + 1 ≤ (drainPending fuel st2).1.expectedSeq := ih1
      rw [hdrain]
      dsimp only
      have hchunkmem : (st.expectedSeq, chunk) ∈ st.pendingChunks := mapLookup_mem hl
      refine ⟨by omega, ?_, ?_, ?_, ?_, ?_, ?_, ?_⟩
      · -- the commit seqs are consecutive from the old cursor
        simp only [traceSeqs, List.map_cons] at ih2 ⊢
        rw [ih2]
        have hn : (drainPending fuel st2).1.expectedSeq - st.expectedSeq
            = ((drainPending fuel st2).1.expectedSeq - (st.expectedSeq + 1)) + 1 := by
          omega
        rw [hn, List.range'_succ]
      · -- surviving keys sit strictly above the final cursor
        exact ih3
      · -- the buffer only shrinks
        intro p hp
        have := ih4 p hp
        rw [hst2p] at this
        exact (mem_mapErase.mp this).1
      · -- entries at or above the final cursor survive
        intro p hp hge
        apply ih5
        · rw [hst2p, mem_mapErase]
          refine ⟨hp, ?_⟩
          omega
        · exact hge
      · -- commits come from the buffer
        intro q hq
        rcases List.mem_cons.mp hq with rfl | hq2
        · exact hchunkmem
        · have := ih6 q hq2
          rw [hst2p] at this
          exact (mem_mapErase.mp this).1
      · -- received grows by the committed bytes
        rw [ih7, hst2r]
        simp only [traceBytes, List.map_cons, List.sum_cons]
        omega
      · -- the sink grows by the committed (non-empty) payloads
        rw [ih8, hst2s]
        simp only [List.map_cons, List.filter_cons]
        by_cases hlen : chunk.length = 0
        · simp [hlen]
        · simp [hlen]

theorem mapLookup_isSome_mem {m : List (Nat × List Nat)} {k : Nat}
    (h : (mapLookup m k).isSome) : ∃ v, (k, v) ∈ m := by
  obtain ⟨v, hv⟩ := Option.isSome_iff_exists.mp h
  exact ⟨v, mapLookup_mem hv⟩

/-- What one `file-chunk` message does to the reassembly state, given the
invariant that buffered keys sit strictly above the cursor: the cursor only
advances; the invariant is preserved; the step's commits are exactly the
consecutive seqs from the old cursor to the new one, in order; every seq that
was committed or buffered stays committed or buffered; the arriving seq itself
ends up committed or buffered; commits and surviving buffer entries all come
from arrivals or the old buffer; and `received`/the sink grow by exactly the
committed bytes. -/
theorem handleFileChunkMsg_spec (st : IncomingState) (seq : Nat) (chunk : List Nat)
    (hkeys : ∀ p ∈ st.pendingChunks, st.expectedSeq < p.1) :
    st.expectedSeq ≤ (handleFileChunkMsg st seq chunk).1.expectedSeq ∧
    (∀ p ∈ (handleFileChunkMsg st seq chunk).1.pendingChunks,
        (handleFileChunkMsg st seq chunk).1.expectedSeq < p.1) ∧
    traceSeqs (handleFileChunkMsg st seq chunk).2
      = List.range' st.expectedSeq
          ((handleFileChunkMsg st seq chunk).1.expectedSeq - st.expectedSeq) ∧
    (∀ s, (s < st.expectedSeq ∨ ∃ v, (s, v) ∈ st.pendingChunks) →
        (s < (handleFileChunkMsg st seq chunk).1.expectedSeq ∨
          ∃ v, (s, v) ∈ (handleFileChunkMsg st seq chunk).1.pendingChunks)) ∧
    (seq < (handleFileChunkMsg st seq chunk).1.expectedSeq ∨
      ∃ v, (seq, v) ∈ (handleFileChunkMsg st seq chunk).1.pendingChunks) ∧
    (∀ q ∈ (handleFileChunkMsg st seq chunk).2, q = (seq, chunk) ∨ q ∈ st.pendingChunks) ∧
    (∀ p ∈ (handleFileChunkMsg st seq chunk).1.pendingChunks,
        p ∈ st.pendingChunks ∨ p = (seq, chunk)) ∧
    (handleFileChunkMsg st seq chunk).1.received
      = st.received + traceBytes (handleFileChunkMsg st seq chunk).2 ∧
    (handleFileChunkMsg st seq chunk).1.sink
      = st.sink ++ ((handleFileChunkMsg st seq chunk).2.map Prod.snd).filter
          (fun c => c.length ≠ 0) := by
  rcases Nat.lt_trichotomy seq st.expectedSeq with hlt | heq | hgt
  · -- duplicate/late: dropped
    have hstep : handleFileChunkMsg st seq chunk = (st, []) := by
      simp only [handleFileChunkMsg, if_pos hlt]
    rw [hstep]
    refine ⟨Nat.le_refl _, hkeys, by simp [traceSeqs], ?_, Or.inl hlt, ?_, ?_, ?_, ?_⟩
    · intro s hs
      exact hs
    · intro q hq
      simp at hq
    · intro p hp
      exact Or.inl hp
    · simp [traceBytes]
    · simp
  · -- in order: commit, advance, drain
    subst heq
    set st2 : IncomingState :=
      { commitChunk st chunk with expectedSeq := st.expectedSeq + 1 } with hst2
    have hstep : handleFileChunkMsg st st.expectedSeq chunk
        = ((drainPending st.pendingChunks.length st2).1,
           (st.expectedSeq, chunk) :: (drainPending st.pendingChunks.length st2).2) := by
      simp only [handleFileChunkMsg]
      rw [if_neg (by omega), if_neg (by omega)]
    have hst2e : st2.expectedSeq = st.expectedSeq + 1 := rfl
    have hst2p : st2.pendingChunks = st.pendingChunks := by
      rw [hst2]
      simp
    have hst2r : st2.received = st.received + chunk.length := by
      rw [hst2]
      simp [commitChunk_received]
    have hst2s : st2.sink = st.sink ++ if chunk.length = 0 then [] else [chunk] := by
      rw [hst2]
      simp [commitChunk_sink]
    have hkeys2 : ∀ p ∈ st2.pendingChunks, st2.expectedSeq ≤ p.1 := by
      intro p hp
      rw [hst2p] at hp
      have := hkeys p hp
      omega
    obtain ⟨d1, d2, d3, d4, d5, d6, d7, d8⟩ :=
      drainPending_spec st.pendingChunks.length st2 (by rw [hst2p]) hkeys2
    rw [hst2e] at d1 d2
    have d1' : st.expectedSeq + 1
        ≤ (drainPending st.pendingChunks.length st2).1.expectedSeq := d1
    rw [hstep]
    dsimp only
    refine ⟨by omega, d3, ?_, ?_, Or.inl (by omega), ?_, ?_, ?_, ?_⟩
    · simp only [traceSeqs, List.map_cons] at d2 ⊢
      rw [d2]
      have hn : (drainPending st.pendingChunks.length st2).1.expectedSeq - st.expectedSeq
          = ((drainPending st.pendingChunks.length st2).1.expectedSeq
              - (st.expectedSeq + 1)) + 1 := by
        omega
      rw [hn, List.range'_succ]
    · intro s hs
      rcases hs with hs | ⟨v, hv⟩
      · exact Or.inl (by omega)
      · rcases Nat.lt_or_ge s (drainPending st.pendingChunks.length st2).1.expectedSeq
          with hcase | hcase
        · exact Or.inl hcase
        · refine Or.inr ⟨v, ?_⟩
          apply d5
          · rw [hst2p]
            exact hv
          · exact hcase
    · intro q hq
      rcases List.mem_cons.mp hq with rfl | hq2
      · exact Or.inl rfl
      · have := d6 q hq2
        rw [hst2p] at this
        exact Or.inr this
    · intro p hp
      have := d4 p hp
      rw [hst2p] at this
      exact Or.inl this
    · rw [d7, hst2r]
      simp only [traceBytes, List.map_cons, List.sum_cons]
      omega
    · rw [d8, hst2s]
      simp only [List.map_cons, List.filter_cons]
      by_cases hlen : chunk.length = 0
      · simp [hlen]
      · simp [hlen]
  · -- early: buffer into pending
    have hstep : handleFileChunkMsg st seq chunk
        = ({ st with pendingChunks := mapInsertIfAbsent st.pendingChunks seq chunk }, []) := by
      simp only [handleFileChunkMsg]
      rw [if_neg (by omega), if_pos hgt]
    rw [hstep]
    dsimp only
    have hmemi : ∀ p ∈ mapInsertIfAbsent st.pendingChunks seq chunk,
        p ∈ st.pendingChunks ∨ p = (seq, chunk) := by
      intro p hp
      unfold mapInsertIfAbsent at hp
      split_ifs at hp with hs
      · exact Or.inl hp
      · rcases List.mem_append.mp hp with hp2 | hp2
        · exact Or.inl hp2
        · exact Or.inr (by simpa using hp2)
    refine ⟨Nat.le_refl _, ?_, by simp [traceSeqs], ?_, ?_, ?_, hmemi, ?_, ?_⟩
    · intro p hp
      rcases hmemi p hp with hp2 | rfl
      · exact hkeys p hp2
      · exact hgt
    · intro s hs
      rcases hs with hs | ⟨v, hv⟩
      · exact Or.inl hs
      · refine Or.inr ⟨v, ?_⟩
        unfold mapInsertIfAbsent
        split_ifs with hsome
        · exact hv
        · exact List.mem_append_left _ hv
    · refine Or.inr ?_
      unfold mapInsertIfAbsent
      split_ifs with hsome
      · exact mapLookup_isSome_mem hsome
      · exact ⟨chunk, List.mem_append_right _ (by simp)⟩
    · intro q hq
      simp at hq
    · simp [traceBytes]
    · simp

theorem range'_split (s a b : Nat) (h1 : s ≤ a) (h2 : a ≤ b) :
    List.range' s (a - s) ++ List.range' a (b - a) = List.range' s (b - s) := by
  have hkey := List.range'_append s (a - s) (b - a) 1
  rw [Nat.one_mul] at hkey
  have hsa : s + (a - s) = a := by omega
  rw [hsa] at hkey
  have hn : (b - a) + (a - s) = b - s := by omega
  rw [hn] at hkey
  exact hkey

/-- The accumulated guarantees of processing any arrival list from any state
satisfying the buffer invariant (see `handleFileChunkMsg_spec`; conjunct 5 adds
that every arrived seq ends up committed or buffered). -/
theorem processArrivals_spec : ∀ (msgs : List (Nat × List Nat)) (st : IncomingState),
    (∀ p ∈ st.pendingChunks, st.expectedSeq < p.1) →
    st.expectedSeq ≤ (processArrivals st msgs).1.expectedSeq ∧
    (∀ p ∈ (processArrivals st msgs).1.pendingChunks,
        (processArrivals st msgs).1.expectedSeq < p.1) ∧
    traceSeqs (processArrivals st msgs).2
      = List.range' st.expectedSeq ((processArrivals st msgs).1.expectedSeq - st.expectedSeq) ∧
    (∀ s, (s < st.expectedSeq ∨ ∃ v, (s, v) ∈ st.pendingChunks) →
        (s < (processArrivals st msgs).1.expectedSeq ∨
          ∃ v, (s, v) ∈ (processArrivals st msgs).1.pendingChunks)) ∧
    (∀ q ∈ msgs, q.1 < (processArrivals st msgs).1.expectedSeq ∨
        ∃ v, (q.1, v) ∈ (processArrivals st msgs).1.pendingChunks) ∧
    (∀ q ∈ (processArrivals st msgs).2, q ∈ msgs ∨ q ∈ st.pendingChunks) ∧
    (∀ p ∈ (processArrivals st msgs).1.pendingChunks, p ∈ st.pendingChunks ∨ p ∈ msgs) ∧
    (processArrivals st msgs).1.received
      = st.received + traceBytes (processArrivals st msgs).2 ∧
    (processArrivals st msgs).1.sink
      = st.sink ++ ((processArrivals st msgs).2.map Prod.snd).filter
          (fun c => c.length ≠ 0) := by
  intro msgs
  induction msgs with
  | nil =>
    intro st hkeys
    refine ⟨Nat.le_refl _, hkeys, by simp [processArrivals, traceSeqs], ?_, ?_, ?_, ?_, ?_, ?_⟩ <;>
      simp [processArrivals, traceBytes]
  | cons m rest ih =>
    intro st hkeys
    obtain ⟨seq, chunk⟩ := m
    have hproc : processArrivals st ((seq, chunk) :: rest)
        = ((processArrivals (handleFileChunkMsg st seq chunk).1 rest).1,
           (handleFileChunkMsg st seq chunk).2
             ++ (processArrivals (handleFileChunkMsg st seq chunk).1 rest).2) := by
      simp only [processArrivals]
    obtain ⟨h1, h2, h3, h4, h5, h6, h7, h8, h9⟩ := handleFileChunkMsg_spec st seq chunk hkeys
    obtain ⟨i1, i2, i3, i4, i5, i6, i7, i8, i9⟩ :=
      ih (handleFileChunkMsg st seq chunk).1 h2
    rw [hproc]
    dsimp only
    refine ⟨by omega, i2, ?_, ?_, ?_, ?_, ?_, ?_, ?_⟩
    · -- the commit seqs of the whole run stay consecutive in order
      simp only [traceSeqs, List.map_append] at h3 i3 ⊢
      rw [h3, i3]
      exact range'_split st.expectedSeq (handleFileChunkMsg st seq chunk).1.expectedSeq
        (processArrivals (handleFileChunkMsg st seq chunk).1 rest).1.expectedSeq h1 i1
    · intro s hs
      exact i4 s (h4 s hs)
    · intro q hq
      rcases List.mem_cons.mp hq with rfl | hq2
      · exact i4 seq h5
      · exact i5 q hq2
    · intro q hq
      rcases List.mem_append.mp hq with hq2 | hq2
      · rcases h6 q hq2 with rfl | hq3
        · exact Or.inl (List.mem_cons_self _ _)
        · exact Or.inr hq3
      · rcases i6 q hq2 with hq3 | hq3
        · exact Or.inl (List.mem_cons_of_mem _ hq3)
        · rcases h7 q hq3 with hq4 | rfl
          · exact Or.inr hq4
          · exact Or.inl (List.mem_cons_self _ _)
    · intro p hp
      rcases i7 p hp with hp2 | hp2
      · rcases h7 p hp2 with hp3 | rfl
        · exact Or.inl hp3
        · exact Or.inr (List.mem_cons_self _ _)
      · exact Or.inr (List.mem_cons_of_mem _ hp2)
    · rw [i8, h8]
      simp only [traceBytes, List.map_append, List.sum_append]
      omega
    · rw [i9, h9]
      simp only [List.map_append, List.filter_append, List.append_assoc]

/-- With every arriving seq below `N`, the cursor never passes `N`. -/
theorem processArrivals_expectedSeq_le (N : Nat) (msgs : List (Nat × List Nat))
    (hrange : ∀ q ∈ msgs, q.1 < N) :
    (processArrivals initialIncomingState msgs).1.expectedSeq ≤ N := by
  obtain ⟨p1, p2, p3, p4, p5, p6, p7, p8, p9⟩ :=
    processArrivals_spec msgs initialIncomingState (by simp [initialIncomingState])
  rcases Nat.eq_zero_or_pos (processArrivals initialIncomingState msgs).1.expectedSeq
    with hz | hpos
  · omega
  · set E := (processArrivals initialIncomingState msgs).1.expectedSeq with hE
    unfold traceSeqs at p3
    have hmem : E - 1 ∈ (processArrivals initialIncomingState msgs).2.map Prod.fst := by
      rw [p3]
      simp only [initialIncomingState, Nat.sub_zero]
      rw [List.mem_range'_1]
      omega
    obtain ⟨q, hq, hq1⟩ := List.mem_map.mp hmem
    rcases p6 q hq with hq2 | hq2
    · have := hrange q hq2
      omega
    · simp [initialIncomingState] at hq2

/-- If every seq below `N` arrives at least once, the cursor reaches `N`. -/
theorem processArrivals_expectedSeq_ge (N : Nat) (msgs : List (Nat × List Nat))
    (hcover : ∀ i, i < N → i ∈ msgs.map Prod.fst) :
    N ≤ (processArrivals initialIncomingState msgs).1.expectedSeq := by
  obtain ⟨p1, p2, p3, p4, p5, p6, p7, p8, p9⟩ :=
    processArrivals_spec msgs initialIncomingState (by simp [initialIncomingState])
  by_contra hlt
  push_neg at hlt
  obtain ⟨q, hq, hq1⟩ :=
    List.mem_map.mp (hcover (processArrivals initialIncomingState msgs).1.expectedSeq hlt)
  rcases p5 q hq with hq2 | ⟨v, hv⟩
  · omega
  · have := p2 (q.1, v) hv
    simp at this
    omega

/-- The full run's commit trace is the initial segment up to the final cursor. -/
theorem processArrivals_trace_range (msgs : List (Nat × List Nat)) :
    traceSeqs (processArrivals initialIncomingState msgs).2
      = List.range (processArrivals initialIncomingState msgs).1.expectedSeq := by
  obtain ⟨p1, p2, p3, p4, p5, p6, p7, p8, p9⟩ :=
    processArrivals_spec msgs initialIncomingState (by simp [initialIncomingState])
  rw [p3]
  simp only [initialIncomingState, Nat.sub_zero]
  rw [List.range_eq_range']

/-- C1: for every incoming transfer, a file-chunk arriving on a matching
stream after acceptance is dropped when `seq < expectedSeq`, buffered into
`pending` when `seq > expectedSeq`, and committed with an advance plus an
in-order drain of all contiguous buffered successors when `seq = expectedSeq`
(the step's commits are exactly the consecutive seqs from the old cursor,
starting with the arriving chunk); consequently, for a completed transfer
whose `N` frames all arrived (in any order, duplicates allowed), the seqs
committed to the sink are exactly `0, 1, …, N-1`, in that order. -/
theorem receiver_inorder_reassembly
    (st : IncomingState) (seq : Nat) (chunk : List Nat)
    (hkeys : ∀ p ∈ st.pendingChunks, st.expectedSeq < p.1)
    (N : Nat) (msgs : List (Nat × List Nat))
    (hrange : ∀ q ∈ msgs, q.1 < N)
    (hcover : ∀ i, i < N → i ∈ msgs.map Prod.fst) :
    (seq < st.expectedSeq → handleFileChunkMsg st seq chunk = (st, [])) ∧
    (st.expectedSeq < seq → handleFileChunkMsg st seq chunk
        = ({ st with pendingChunks := mapInsertIfAbsent st.pendingChunks seq chunk }, [])) ∧
    (seq = st.expectedSeq →
      (handleFileChunkMsg st seq chunk).2.map Prod.fst
          = List.range' st.expectedSeq
              ((handleFileChunkMsg st seq chunk).1.expectedSeq - st.expectedSeq) ∧
      (handleFileChunkMsg st seq chunk).2.head? = some (seq, chunk)) ∧
    traceSeqs (processArrivals initialIncomingState msgs).2 = List.range N := by
  refine ⟨?_, ?_, ?_, ?_⟩
  · intro h
    simp only [handleFileChunkMsg, if_pos h]
  · intro h
    simp only [handleFileChunkMsg]
    rw [if_neg (by omega), if_pos h]
  · intro h
    subst h
    constructor
    · have := (handleFileChunkMsg_spec st st.expectedSeq chunk hkeys).2.2.1
      unfold traceSeqs at this
      exact this
    · simp only [handleFileChunkMsg]
      rw [if_neg (by omega), if_neg (by omega)]
      rfl
  · have hN1 := processArrivals_expectedSeq_le N msgs hrange
    have hN2 := processArrivals_expectedSeq_ge N msgs hcover
    rw [processArrivals_trace_range]
    congr 1
    omega

/-- Witness for C1: four frames for a 3-frame transfer arrive out of order and
with a duplicate (`1, 0, 2, 1` again); the committed seqs are exactly
`0, 1, 2` in order. -/
theorem receiver_inorder_reassembly_witness :
    traceSeqs (processArrivals initialIncomingState
        [(1, [5, 6]), (0, [7]), (2, [9]), (1, [8])]).2 = List.range 3 :=
  (receiver_inorder_reassembly initialIncomingState 0 [1]
    (by simp [initialIncomingState]) 3 [(1, [5, 6]), (0, [7]), (2, [9]), (1, [8])]
    (by decide) (by decide)).2.2.2

/-- C3: for a conformant transfer — `N` frames whose lengths `len i` sum to the
declared `size`, every arriving chunk carrying frame `seq`'s payload — whenever
the receiver's `file-done` condition (`received ≥ size`, checked right after a
commit) holds, the received byte counter equals the declared size exactly. -/
theorem fileDone_received_eq_size (N size : Nat) (len : Nat → Nat)
    (msgs : List (Nat × List Nat))
    (hsum : ((List.range N).map len).sum = size)
    (hlen : ∀ q ∈ msgs, q.2.length = len q.1)
    (hrange : ∀ q ∈ msgs, q.1 < N)
    (hdone : emitsFileDone (processArrivals initialIncomingState msgs).1 size = true) :
    (processArrivals initialIncomingState msgs).1.received = size := by
  obtain ⟨p1, p2, p3, p4, p5, p6, p7, p8, p9⟩ :=
    processArrivals_spec msgs initialIncomingState (by simp [initialIncomingState])
  have hrecv : (processArrivals initialIncomingState msgs).1.received
      = traceBytes (processArrivals initialIncomingState msgs).2 := by
    rw [p8]
    simp [initialIncomingState]
  have htr := processArrivals_trace_range msgs
  unfold traceSeqs at htr
  have hlen2 : ∀ q ∈ (processArrivals initialIncomingState msgs).2,
      q.2.length = len q.1 := by
    intro q hq
    rcases p6 q hq with h | h
    · exact hlen q h
    · simp [initialIncomingState] at h
  have htb : traceBytes (processArrivals initialIncomingState msgs).2
      = (((processArrivals initialIncomingState msgs).2.map Prod.fst).map len).sum := by
    unfold traceBytes
    rw [List.map_map]
    congr 1
    apply List.map_congr_left
    intro q hq
    simpa using hlen2 q hq
  have hE := processArrivals_expectedSeq_le N msgs hrange
  have hmono :
      ((List.range (processArrivals initialIncomingState msgs).1.expectedSeq).map len).sum
        ≤ ((List.range N).map len).sum := by
    have hsplit := range'_split 0
      (processArrivals initialIncomingState msgs).1.expectedSeq N (Nat.zero_le _) hE
    simp only [Nat.sub_zero] at hsplit
    rw [List.range_eq_range', List.range_eq_range', ← hsplit, List.map_append,
      List.sum_append]
    omega
  have h1 : (processArrivals initialIncomingState msgs).1.received
      = ((List.range (processArrivals initialIncomingState msgs).1.expectedSeq).map
          len).sum := by
    rw [hrecv, htb, htr]
  have h3 : size ≤ (processArrivals initialIncomingState msgs).1.received := by
    unfold emitsFileDone at hdone
    exact of_decide_eq_true hdone
  omega

/-- Witness for C3: a 2-frame transfer (`len 0 = 2`, `len 1 = 1`, size 3)
arriving out of order; at the moment `file-done` fires, `received = 3 = size`. -/
theorem fileDone_received_eq_size_witness :
    (processArrivals initialIncomingState [(1, [9]), (0, [5, 6])]).1.received = 3 :=
  fileDone_received_eq_size 2 3 (fun i => if i = 0 then 2 else 1) [(1, [9]), (0, [5, 6])]
    (by decide) (by decide) (by decide) (by decide)

/-! ## UTF-8 (the byte view of the JSON payload that `Blob`/`Response`
produce in `encodeSignal`/`decodeSignal`) -/

/-- Standard UTF-8 encoding of one scalar value. -/
def utf8EncodeChar (c : Char) : List Nat :=
  if c.toNat < 128 then [c.toNat]
  else if c.toNat < 2048 then [192 + c.toNat / 64, 128 + c.toNat % 64]
  else if c.toNat < 65536 then
    [224 + c.toNat / 4096, 128 + c.toNat / 64 % 64, 128 + c.toNat % 64]
  else
    [240 + c.toNat / 262144, 128 + c.toNat / 4096 % 64, 128 + c.toNat / 64 % 64,
      128 + c.toNat % 64]

/-- UTF-8 encoding of a character list. -/
def utf8EncodeList : List Char → List Nat
  | [] => []
  | c :: cs => utf8EncodeChar c ++ utf8EncodeList cs

/-- Prepend a decoded character to an optional tail. -/
def consOpt (c : Char) : Option (List Char) → Option (List Char)
  | none => none
  | some cs => some (c :: cs)

def utf8Cont2 (b : Nat) : List Nat → Option (Nat × List Nat)
  | b2 :: rest =>
    if 128 ≤ b2 ∧ b2 < 192 then some ((b - 192) * 64 + (b2 - 128), rest) else none
  | [] => none

def utf8Cont3 (b : Nat) : List Nat → Option (Nat × List Nat)
  | b2 :: b3 :: rest =>
    if (128 ≤ b2 ∧ b2 < 192) ∧ (128 ≤ b3 ∧ b3 < 192) then
      some ((b - 224) * 4096 + (b2 - 128) * 64 + (b3 - 128), rest)
    else none
  | _ => none

def utf8Cont4 (b : Nat) : List Nat → Option (Nat × List Nat)
  | b2 :: b3 :: b4 :: rest =>
    if (128 ≤ b2 ∧ b2 < 192) ∧ (128 ≤ b3 ∧ b3 < 192) ∧ (128 ≤ b4 ∧ b4 < 192) then
      some ((b - 240) * 262144 + (b2 - 128) * 4096 + (b3 - 128) * 64 + (b4 - 128), rest)
    else none
  | _ => none

/-- Decode one UTF-8 scalar; returns its value and the remaining bytes. -/
def utf8DecodeOne : List Nat → Option (Nat × List Nat)
  | [] => none
  | b :: rest =>
    if b < 128 then some (b, rest)
    else if b < 192 then none
    else if b < 224 then utf8Cont2 b rest
    else if b < 240 then utf8Cont3 b rest
    else if b < 248 then utf8Cont4 b rest
    else none

/-- Fuel-totalized UTF-8 decode loop (every step consumes at least one byte,
so the byte count is sufficient fuel). -/
def utf8DecodeGo : Nat → List Nat → Option (List Char)
  | _, [] => some []
  | 0, _ :: _ => none
  | fuel + 1, b :: rest =>
    match utf8DecodeOne (b :: rest) with
    | none => none
    | some (n, rest2) => consOpt (Char.ofNat n) (utf8DecodeGo fuel rest2)

/-- UTF-8 decoding; `none` on malformed input. -/
def utf8DecodeList (bs : List Nat) : Option (List Char) :=
  utf8DecodeGo bs.length bs

theorem char_toNat_lt (c : Char) : c.toNat < 1114112 := by
  have h := c.valid
  have h2 : c.toNat = c.val.toNat := rfl
  rcases h with h | h
  · omega
  · omega

theorem utf8EncodeChar_bytes_lt (c : Char) : ∀ b ∈ utf8EncodeChar c, b < 256 := by
  intro b hb
  have hc := char_toNat_lt c
  unfold utf8EncodeChar at hb
  split_ifs at hb with h1 h2 h3 <;> simp at hb <;> omega

theorem utf8EncodeList_bytes_lt (cs : List Char) : ∀ b ∈ utf8EncodeList cs, b < 256 := by
  induction cs with
  | nil => intro b hb; simp [utf8EncodeList] at hb
  | cons c cs ih =>
    intro b hb
    rw [utf8EncodeList] at hb
    rcases List.mem_append.mp hb with h | h
    · exact utf8EncodeChar_bytes_lt c b h
    · exact ih b h

theorem utf8DecodeOne_encodeChar (c : Char) (tail : List Nat) :
    utf8DecodeOne (utf8EncodeChar c ++ tail) = some (c.toNat, tail) := by
  have hc := char_toNat_lt c
  unfold utf8EncodeChar
  by_cases h1 : c.toNat < 128
  · rw [if_pos h1, List.singleton_append, utf8DecodeOne, if_pos h1]
  · by_cases h2 : c.toNat < 2048
    · rw [if_neg h1, if_pos h2]
      simp only [List.cons_append, List.singleton_append]
      rw [utf8DecodeOne]
      rw [if_neg (by omega), if_neg (by omega), if_pos (by omega)]
      rw [utf8Cont2, if_pos (by constructor <;> omega)]
      have harith : (192 + c.toNat / 64 - 192) * 64 + (128 + c.toNat % 64 - 128)
          = c.toNat := by omega
      rw [harith, List.nil_append]
    · by_cases h3 : c.toNat < 65536
      · rw [if_neg h1, if_neg h2, if_pos h3]
        simp only [List.cons_append, List.singleton_append]
        rw [utf8DecodeOne]
        rw [if_neg (by omega), if_neg (by omega), if_neg (by omega), if_pos (by omega)]
        rw [utf8Cont3, if_pos (by refine ⟨⟨?_, ?_⟩, ?_, ?_⟩ <;> omega)]
        have harith : (224 + c.toNat / 4096 - 224) * 4096
            + (128 + c.toNat / 64 % 64 - 128) * 64 + (128 + c.toNat % 64 - 128)
            = c.toNat := by omega
        rw [harith, List.nil_append]
      · rw [if_neg h1, if_neg h2, if_neg h3]
        simp only [List.cons_append, List.singleton_append]
        rw [utf8DecodeOne]
        rw [if_neg (by omega), if_neg (by omega), if_neg (by omega), if_neg (by omega),
          if_pos (by omega)]
        rw [utf8Cont4, if_pos (by refine ⟨⟨?_, ?_⟩, ⟨?_, ?_⟩, ?_, ?_⟩ <;> omega)]
        have harith : (240 + c.toNat / 262144 - 240) * 262144
            + (128 + c.toNat / 4096 % 64 - 128) * 4096
            + (128 + c.toNat / 64 % 64 - 128) * 64 + (128 + c.toNat % 64 - 128)
            = c.toNat := by omega
        rw [harith, List.nil_append]

theorem utf8EncodeChar_ne_nil (c : Char) : utf8EncodeChar c ≠ [] := by
  unfold utf8EncodeChar
  split_ifs <;> simp

theorem utf8EncodeList_length_ge (cs : List Char) :
    cs.length ≤ (utf8EncodeList cs).length := by
  induction cs with
  | nil => simp [utf8EncodeList]
  | cons c cs ih =>
    rw [utf8EncodeList, List.length_append, List.length_cons]
    have h1 : 1 ≤ (utf8EncodeChar c).length := by
      rcases List.exists_cons_of_ne_nil (utf8EncodeChar_ne_nil c) with ⟨b, bs, hb⟩
      simp [hb]
    omega

theorem utf8DecodeGo_encode (cs : List Char) : ∀ fuel, cs.length ≤ fuel →
    utf8DecodeGo fuel (utf8EncodeList cs) = some cs := by
  induction cs with
  | nil =>
    intro fuel _
    cases fuel <;> rfl
  | cons c cs ih =>
    intro fuel hf
    rw [utf8EncodeList]
    simp only [List.length_cons] at hf
    obtain ⟨f, rfl⟩ : ∃ f, fuel = f + 1 := ⟨fuel - 1, by omega⟩
    obtain ⟨b, bs, hb⟩ := List.exists_cons_of_ne_nil (utf8EncodeChar_ne_nil c)
    have hone := utf8DecodeOne_encodeChar c (utf8EncodeList cs)
    rw [hb, List.cons_append] at hone ⊢
    rw [utf8DecodeGo, hone]
    dsimp only
    rw [ih f (by omega), Char.ofNat_toNat]
    rfl

theorem utf8_roundtrip (cs : List Char) :
    utf8DecodeList (utf8EncodeList cs) = some cs :=
  utf8DecodeGo_encode cs _ (utf8EncodeList_length_ge cs)

/-! ## The signal JSON layer

`encodeSignal` serializes `\x7bt, s, c\x7d` with `JSON.stringify`;
`decodeSignal` reads it back with `Response.json()` (`JSON.parse`).  The
serializer below is `JSON.stringify` restricted to this fixed shape (two
string fields and a config object whose values are the bits 0/1 the source
puts there); the parser accepts exactly the serializer's output language,
on which it agrees with `JSON.parse`. -/

def lbrace : Char := Char.ofNat 123

def rbrace : Char := Char.ofNat 125

/-- Lowercase hex digit, as `JSON.stringify` emits in `\u00XX` escapes. -/
def hexDigit (n : Nat) : Char :=
  if n < 10 then Char.ofNat (48 + n) else Char.ofNat (87 + n)

/-- `JSON.stringify`'s escaping of one character inside a string literal. -/
def jsonEscapeChar (c : Char) : List Char :=
  if c = '"' then ['\\', '"']
  else if c = '\\' then ['\\', '\\']
  else if c = '\n' then ['\\', 'n']
  else if c = '\r' then ['\\', 'r']
  else if c = '\t' then ['\\', 't']
  else if c = Char.ofNat 8 then ['\\', 'b']
  else if c = Char.ofNat 12 then ['\\', 'f']
  else if c.toNat < 32 then ['\\', 'u', '0', '0', hexDigit (c.toNat / 16), hexDigit (c.toNat % 16)]
  else [c]

def escString : List Char → List Char
  | [] => []
  | c :: cs => jsonEscapeChar c ++ escString cs

/-- A JSON string literal: quote, escaped body, quote. -/
def quoteChars (cs : List Char) : List Char :=
  '"' :: escString cs ++ ['"']

/-- The `c` object embedded in every signal: the source writes
`useX ? 1 : 0` for each bit. -/
structure SignalCfg where
  stun : Bool
  fileUnordered : Bool
  fast : Bool
deriving DecidableEq

def cfgDigit (b : Bool) : Char :=
  if b then '1' else '0'

/-- `JSON.stringify(\x7bt, s, c: \x7bstun, fileUnordered, fast\x7d\x7d)` for the fixed
signal schema. -/
def stringifySignalJson (t s : String) (cfg : SignalCfg) : List Char :=
  [lbrace, '"', 't', '"', ':'] ++ quoteChars t.data
    ++ [',', '"', 's', '"', ':'] ++ quoteChars s.data
    ++ [',', '"', 'c', '"', ':', lbrace, '"', 's', 't', 'u', 'n', '"', ':']
    ++ [cfgDigit cfg.stun]
    ++ [',', '"', 'f', 'i', 'l', 'e', 'U', 'n', 'o', 'r', 'd', 'e', 'r', 'e', 'd', '"', ':']
    ++ [cfgDigit cfg.fileUnordered]
    ++ [',', '"', 'f', 'a', 's', 't', '"', ':']
    ++ [cfgDigit cfg.fast]
    ++ [rbrace, rbrace]

def hexVal (c : Char) : Option Nat :=
  if '0' ≤ c ∧ c ≤ '9' then some (c.toNat - 48)
  else if 'a' ≤ c ∧ c ≤ 'f' then some (c.toNat - 87)
  else if 'A' ≤ c ∧ c ≤ 'F' then some (c.toNat - 55)
  else none

def prependParsed (c : Char) : Option (List Char × List Char) → Option (List Char × List Char)
  | none => none
  | some (s, rest) => some (c :: s, rest)

def parseHex4 : List Char → Option (Nat × List Char)
  | h1 :: h2 :: h3 :: h4 :: rest =>
    match hexVal h1, hexVal h2, hexVal h3, hexVal h4 with
    | some a, some b, some c, some d => some (((a * 16 + b) * 16 + c) * 16 + d, rest)
    | _, _, _, _ => none
  | _ => none

/-- Parse one element of a JSON string literal: either the closing quote
(`none`) or one (possibly escaped) character. -/
def parseStringOne : List Char → Option (Option Char × List Char)
  | [] => none
  | c :: rest =>
    if c = '"' then some (none, rest)
    else if c = '\\' then
      match rest with
      | [] => none
      | e :: rest2 =>
        if e = '"' then some (some '"', rest2)
        else if e = '\\' then some (some '\\', rest2)
        else if e = '/' then some (some '/', rest2)
        else if e = 'n' then some (some '\n', rest2)
        else if e = 'r' then some (some '\r', rest2)
        else if e = 't' then some (some '\t', rest2)
        else if e = 'b' then some (some (Char.ofNat 8), rest2)
        else if e = 'f' then some (some (Char.ofNat 12), rest2)
        else if e = 'u' then
          match parseHex4 rest2 with
          | some (n, rest3) => some (some (Char.ofNat n), rest3)
          | none => none
        else none
    else some (some c, rest)

/-- Fuel-totalized string-literal body parse (each step consumes at least one
character). -/
def parseStringGo : Nat → List Char → Option (List Char × List Char)
  | 0, _ => none
  | fuel + 1, cs =>
    match parseStringOne cs with
    | none => none
    | some (none, rest) => some ([], rest)
    | some (some c, rest) => prependParsed c (parseStringGo fuel rest)

/-- Parse the body of a JSON string literal (after the opening quote), up to
and past the closing quote; returns the decoded characters and the rest. -/
def parseStringBody (cs : List Char) : Option (List Char × List Char) :=
  parseStringGo cs.length cs

/-- Consume an exact literal character sequence. -/
def expectChars : List Char → List Char → Option (List Char)
  | [], cs => some cs
  | _ :: _, [] => none
  | e :: es, c :: cs => if c = e then expectChars es cs else none

/-- Parse a quoted JSON string literal. -/
def parseQuoted : List Char → Option (List Char × List Char)
  | [] => none
  | c :: rest => if c = '"' then parseStringBody rest else none

/-- Parse a 0/1 config bit (the only numbers the encoder emits). -/
def parseBit : List Char → Option (Bool × List Char)
  | [] => none
  | c :: rest =>
    if c = '1' then some (true, rest)
    else if c = '0' then some (false, rest)
    else none

/-- Parse the signal JSON produced by `stringifySignalJson` (the language on
which this agrees with `JSON.parse`). -/
def parseSignalJson (cs : List Char) : Option (String × String × SignalCfg) := do
  let r1 ← expectChars [lbrace, '"', 't', '"', ':'] cs
  let (t, r2) ← parseQuoted r1
  let r3 ← expectChars [',', '"', 's', '"', ':'] r2
  let (s, r4) ← parseQuoted r3
  let r5 ← expectChars [',', '"', 'c', '"', ':', lbrace, '"', 's', 't', 'u', 'n', '"', ':'] r4
  let (stunB, r6) ← parseBit r5
  let r7 ← expectChars
    [',', '"', 'f', 'i', 'l', 'e', 'U', 'n', 'o', 'r', 'd', 'e', 'r', 'e', 'd', '"', ':'] r6
  let (fuB, r8) ← parseBit r7
  let r9 ← expectChars [',', '"', 'f', 'a', 's', 't', '"', ':'] r8
  let (fastB, r10) ← parseBit r9
  let r11 ← expectChars [rbrace, rbrace] r10
  if r11 = [] then some (⟨t⟩, ⟨s⟩, ⟨stunB, fuB, fastB⟩) else none

theorem hexVal_hexDigit (n : Nat) (h : n < 16) : hexVal (hexDigit n) = some n := by
  revert n
  decide

theorem expectChars_append (es cs : List Char) :
    expectChars es (es ++ cs) = some cs := by
  induction es with
  | nil => rfl
  | cons e es ih =>
    rw [List.cons_append, expectChars, if_pos rfl]
    exact ih

theorem jsonEscapeChar_ne_nil (c : Char) : jsonEscapeChar c ≠ [] := by
  unfold jsonEscapeChar
  split_ifs <;> simp

theorem parseStringOne_escape (c : Char) (tail : List Char) :
    parseStringOne (jsonEscapeChar c ++ tail) = some (some c, tail) := by
  unfold jsonEscapeChar
  by_cases h1 : c = '"'
  · rw [if_pos h1]
    rw [show (['\\', '"'] : List Char) ++ tail = '\\' :: '"' :: tail from rfl]
    rw [parseStringOne, if_neg (by decide), if_pos rfl, if_pos rfl, h1]
  · by_cases h2 : c = '\\'
    · rw [if_neg h1, if_pos h2]
      rw [show (['\\', '\\'] : List Char) ++ tail = '\\' :: '\\' :: tail from rfl]
      rw [parseStringOne, if_neg (by decide), if_pos rfl, if_neg (by decide), if_pos rfl,
        h2]
    · by_cases h3 : c = '\n'
      · rw [if_neg h1, if_neg h2, if_pos h3]
        rw [show (['\\', 'n'] : List Char) ++ tail = '\\' :: 'n' :: tail from rfl]
        rw [parseStringOne, if_neg (by decide), if_pos rfl, if_neg (by decide),
          if_neg (by decide), if_neg (by decide), if_pos rfl, h3]
      · by_cases h4 : c = '\r'
        · rw [if_neg h1, if_neg h2, if_neg h3, if_pos h4]
          rw [show (['\\', 'r'] : List Char) ++ tail = '\\' :: 'r' :: tail from rfl]
          rw [parseStringOne, if_neg (by decide), if_pos rfl, if_neg (by decide),
            if_neg (by decide), if_neg (by decide), if_neg (by decide), if_pos rfl, h4]
        · by_cases h5 : c = '\t'
          · rw [if_neg h1, if_neg h2, if_neg h3, if_neg h4, if_pos h5]
            rw [show (['\\', 't'] : List Char) ++ tail = '\\' :: 't' :: tail from rfl]
            rw [parseStringOne, if_neg (by decide), if_pos rfl, if_neg (by decide),
              if_neg (by decide), if_neg (by decide), if_neg (by decide),
              if_neg (by decide), if_pos rfl, h5]
          · by_cases h6 : c = Char.ofNat 8
            · rw [if_neg h1, if_neg h2, if_neg h3, if_neg h4, if_neg h5, if_pos h6]
              rw [show (['\\', 'b'] : List Char) ++ tail = '\\' :: 'b' :: tail from rfl]
              rw [parseStringOne, if_neg (by decide), if_pos rfl, if_neg (by decide),
                if_neg (by decide), if_neg (by decide), if_neg (by decide),
                if_neg (by decide), if_neg (by decide), if_pos rfl, h6]
            · by_cases h7 : c = Char.ofNat 12
              · rw [if_neg h1, if_neg h2, if_neg h3, if_neg h4, if_neg h5, if_neg h6,
                  if_pos h7]
                rw [show (['\\', 'f'] : List Char) ++ tail = '\\' :: 'f' :: tail from rfl]
                rw [parseStringOne, if_neg (by decide), if_pos rfl, if_neg (by decide),
                  if_neg (by decide), if_neg (by decide), if_neg (by decide),
                  if_neg (by decide), if_neg (by decide), if_neg (by decide),
                  if_pos rfl, h7]
              · by_cases h8 : c.toNat < 32
                · rw [if_neg h1, if_neg h2, if_neg h3, if_neg h4, if_neg h5, if_neg h6,
                    if_neg h7, if_pos h8]
                  rw [show (['\\', 'u', '0', '0', hexDigit (c.toNat / 16),
                        hexDigit (c.toNat % 16)] : List Char) ++ tail
                      = '\\' :: 'u' :: '0' :: '0' :: hexDigit (c.toNat / 16)
                        :: hexDigit (c.toNat % 16) :: tail from rfl]
                  rw [parseStringOne, if_neg (by decide), if_pos rfl]
                  rw [if_neg (by decide), if_neg (by decide), if_neg (by decide),
                    if_neg (by decide), if_neg (by decide), if_neg (by decide),
                    if_neg (by decide), if_neg (by decide), if_pos rfl]
                  rw [parseHex4]
                  rw [show hexVal '0' = some 0 from rfl]
                  rw [hexVal_hexDigit (c.toNat / 16) (by omega),
                    hexVal_hexDigit (c.toNat % 16) (by omega)]
                  dsimp only
                  have harith : ((0 * 16 + 0) * 16 + c.toNat / 16) * 16 + c.toNat % 16
                      = c.toNat := by omega
                  rw [harith, Char.ofNat_toNat]
                · rw [if_neg h1, if_neg h2, if_neg h3, if_neg h4, if_neg h5, if_neg h6,
                    if_neg h7, if_neg h8]
                  rw [List.singleton_append, parseStringOne.eq_def]
                  dsimp only
                  rw [if_neg h1, if_neg h2]

theorem parseStringGo_escString (cs : List Char) : ∀ (rest : List Char) (fuel : Nat),
    (escString cs).length + 1 ≤ fuel →
    parseStringGo fuel (escString cs ++ '"' :: rest) = some (cs, rest) := by
  induction cs with
  | nil =>
    intro rest fuel hf
    obtain ⟨f, rfl⟩ : ∃ f, fuel = f + 1 := ⟨fuel - 1, by omega⟩
    rw [escString, List.nil_append, parseStringGo]
    rw [show parseStringOne ('"' :: rest) = some (none, rest) from by
      rw [parseStringOne.eq_def]
      dsimp only
      rw [if_pos rfl]]
  | cons c cs ih =>
    intro rest fuel hf
    rw [escString, List.length_append] at hf
    have hne : 1 ≤ (jsonEscapeChar c).length := by
      rcases List.exists_cons_of_ne_nil (jsonEscapeChar_ne_nil c) with ⟨b, bs, hb⟩
      simp [hb]
    obtain ⟨f, rfl⟩ : ∃ f, fuel = f + 1 := ⟨fuel - 1, by omega⟩
    rw [escString, List.append_assoc]
    obtain ⟨b, bs, hb⟩ := List.exists_cons_of_ne_nil (jsonEscapeChar_ne_nil c)
    have hone := parseStringOne_escape c (escString cs ++ '"' :: rest)
    rw [hb, List.cons_append] at hone ⊢
    rw [parseStringGo, hone]
    dsimp only
    rw [ih rest f (by omega)]
    rfl

theorem parseStringBody_escString (cs rest : List Char) :
    parseStringBody (escString cs ++ '"' :: rest) = some (cs, rest) := by
  unfold parseStringBody
  apply parseStringGo_escString
  rw [List.length_append, List.length_cons]
  omega

theorem parseQuoted_quoteChars (cs rest : List Char) :
    parseQuoted (quoteChars cs ++ rest) = some (cs, rest) := by
  unfold quoteChars
  rw [List.cons_append]
  show (if ('"' : Char) = '"' then parseStringBody ((escString cs ++ ['"']) ++ rest)
      else none) = some (cs, rest)
  rw [if_pos rfl, List.append_assoc, List.singleton_append]
  exact parseStringBody_escString cs rest

theorem parseBit_cfgDigit (b : Bool) (rest : List Char) :
    parseBit ([cfgDigit b] ++ rest) = some (b, rest) := by
  cases b <;> rfl

theorem expectChars_self (es : List Char) : expectChars es es = some [] := by
  have h := expectChars_append es []
  rwa [List.append_nil] at h

theorem parseSignalJson_stringify (t s : String) (cfg : SignalCfg) :
    parseSignalJson (stringifySignalJson t s cfg) = some (t, s, cfg) := by
  unfold parseSignalJson stringifySignalJson
  simp only [List.append_assoc]
  rw [expectChars_append]
  dsimp only [Bind.bind, Option.bind]
  rw [parseQuoted_quoteChars]
  dsimp only [Bind.bind, Option.bind]
  rw [expectChars_append]
  dsimp only [Bind.bind, Option.bind]
  rw [parseQuoted_quoteChars]
  dsimp only [Bind.bind, Option.bind]
  rw [expectChars_append]
  dsimp only [Bind.bind, Option.bind]
  rw [parseBit_cfgDigit]
  dsimp only [Bind.bind, Option.bind]
  rw [expectChars_append]
  dsimp only [Bind.bind, Option.bind]
  rw [parseBit_cfgDigit]
  dsimp only [Bind.bind, Option.bind]
  rw [expectChars_append]
  dsimp only [Bind.bind, Option.bind]
  rw [parseBit_cfgDigit]
  dsimp only [Bind.bind, Option.bind]
  rw [expectChars_self]
  rfl

/-! ## Base32 (src/src/webrtc/peerClient.js lines 266-314)

The JS bitwise operators work on 32-bit integers, so the buffer updates keep
an explicit `% 2^32`; all emitted values are masked reads of the low 17 bits,
which the truncation never touches. -/

def BASE32_ALPHABET : List Char :=
  "ABCDEFGHIJKLMNOPQRSTUVWXYZ234567".data

def base32Char (v : Nat) : Char :=
  BASE32_ALPHABET.getD v 'A'

/-- The inner `while (bits >= 5)` emit loop of `base32EncodeBytes`,
fuel-totalized (`bits` itself is sufficient fuel). -/
def b32Drain : Nat → Nat → Nat → List Char
  | 0, _, _ => []
  | fuel + 1, buffer, bits =>
    if 5 ≤ bits then
      base32Char (buffer / 2 ^ (bits - 5) % 32) :: b32Drain fuel buffer (bits - 5)
    else []

/-- The byte loop of `base32EncodeBytes`: shift each byte into the buffer
(32-bit wrap as in JS), emit full 5-bit groups, and finally flush the
remaining bits left-padded with zeros. -/
def base32EncodeLoop : List Nat → Nat → Nat → List Char
  | [], buffer, bits =>
    if 0 < bits then [base32Char (buffer * 2 ^ (5 - bits) % 32)] else []
  | b :: rest, buffer, bits =>
    b32Drain (bits + 8) ((buffer * 256) % 4294967296 + b) (bits + 8)
      ++ base32EncodeLoop rest ((buffer * 256) % 4294967296 + b) ((bits + 8) % 5)

def base32EncodeBytes (bytes : List Nat) : String :=
  ⟨base32EncodeLoop bytes 0 0⟩

/-- ASCII uppercasing, modelling `String.prototype.toUpperCase` on the
characters this codec can see. -/
def jsToUpperChar (c : Char) : Char :=
  if 'a' ≤ c ∧ c ≤ 'z' then Char.ofNat (c.toNat - 32) else c

/-- `BASE32_LOOKUP`: alphabet position, `none` for any other character. -/
def base32CharVal (c : Char) : Option Nat :=
  if 'A' ≤ c ∧ c ≤ 'Z' then some (c.toNat - 65)
  else if '2' ≤ c ∧ c ≤ '7' then some (c.toNat - 24)
  else none

/-- The inner `while (bits >= 8)` byte-emit loop of `base32DecodeToBytes`. -/
def b32DecDrain : Nat → Nat → Nat → List Nat
  | 0, _, _ => []
  | fuel + 1, buffer, bits =>
    if 8 ≤ bits then
      buffer / 2 ^ (bits - 8) % 256 :: b32DecDrain fuel buffer (bits - 8)
    else []

/-- The character loop of `base32DecodeToBytes`: skip whitespace, look each
character up (failing on an invalid one), shift its 5 bits into the buffer and
emit every completed byte; trailing sub-byte bits are discarded. -/
def base32DecodeLoop : List Char → Nat → Nat → Option (List Nat)
  | [], _, _ => some []
  | c :: rest, buffer, bits =>
    if c = '\n' ∨ c = '\r' ∨ c = '\t' ∨ c = ' ' then base32DecodeLoop rest buffer bits
    else
      match base32CharVal c with
      | none => none
      | some v =>
        match base32DecodeLoop rest ((buffer * 32) % 4294967296 + v) ((bits + 5) % 8) with
        | none => none
        | some out =>
          some (b32DecDrain (bits + 5) ((buffer * 32) % 4294967296 + v) (bits + 5) ++ out)

def stripTrailingEq (cs : List Char) : List Char :=
  List.rdropWhile (fun c => c = '=') cs

/-- `base32DecodeToBytes`: uppercase, strip trailing `=`, then decode. -/
def base32DecodeToBytes (input : String) : Option (List Nat) :=
  base32DecodeLoop (stripTrailingEq (input.data.map jsToUpperChar)) 0 0

theorem base32Char_spec : ∀ v, v < 32 →
    base32CharVal (base32Char v) = some v
      ∧ ¬(base32Char v = '\n' ∨ base32Char v = '\r' ∨ base32Char v = '\t'
            ∨ base32Char v = ' ')
      ∧ jsToUpperChar (base32Char v) = base32Char v
      ∧ ¬ base32Char v = '=' := by
  decide

theorem mod32_mul256 (x : Nat) : x * 256 % 4294967296 = 256 * (x % 16777216) := by
  rw [Nat.mul_comm x 256]
  rw [show (4294967296 : Nat) = 256 * 16777216 from rfl]
  exact Nat.mul_mod_mul_left 256 x 16777216

theorem mod32_mul32 (x : Nat) : x * 32 % 4294967296 = 32 * (x % 134217728) := by
  rw [Nat.mul_comm x 32]
  rw [show (4294967296 : Nat) = 32 * 134217728 from rfl]
  exact Nat.mul_mod_mul_left 32 x 134217728

theorem b32Drain_chars : ∀ (fuel buffer bits : Nat),
    ∀ c ∈ b32Drain fuel buffer bits, ∃ v, v < 32 ∧ c = base32Char v := by
  intro fuel
  induction fuel with
  | zero => intro buffer bits c hc; simp [b32Drain] at hc
  | succ fuel ih =>
    intro buffer bits c hc
    rw [b32Drain] at hc
    split_ifs at hc with h
    · rcases List.mem_cons.mp hc with rfl | hc2
      · exact ⟨_, Nat.mod_lt _ (by omega), rfl⟩
      · exact ih buffer (bits - 5) c hc2
    · simp at hc

theorem base32EncodeLoop_chars : ∀ (bytes : List Nat) (eb ebits : Nat),
    ∀ c ∈ base32EncodeLoop bytes eb ebits, ∃ v, v < 32 ∧ c = base32Char v := by
  intro bytes
  induction bytes with
  | nil =>
    intro eb ebits c hc
    rw [base32EncodeLoop] at hc
    split_ifs at hc with h
    · rcases List.mem_singleton.mp hc with rfl
      exact ⟨_, Nat.mod_lt _ (by omega), rfl⟩
    · simp at hc
  | cons b rest ih =>
    intro eb ebits c hc
    rw [base32EncodeLoop] at hc
    rcases List.mem_append.mp hc with hc2 | hc2
    · exact b32Drain_chars _ _ _ c hc2
    · exact ih _ _ c hc2

theorem base32DecodeLoop_cons (c : Char) (rest : List Char) (buffer bits v : Nat)
    (out : List Nat)
    (hws : ¬(c = '\n' ∨ c = '\r' ∨ c = '\t' ∨ c = ' '))
    (hv : base32CharVal c = some v)
    (hrec : base32DecodeLoop rest (buffer * 32 % 4294967296 + v) ((bits + 5) % 8) = some out) :
    base32DecodeLoop (c :: rest) buffer bits
      = some (b32DecDrain (bits + 5) (buffer * 32 % 4294967296 + v) (bits + 5) ++ out) := by
  rw [base32DecodeLoop.eq_def]
  dsimp only
  rw [if_neg hws, hv]
  dsimp only
  rw [hrec]

theorem b32DecDrain_zero_add (B : Nat) : b32DecDrain (0 + 5) B (0 + 5) = [] := rfl

theorem b32DecDrain_five_add (B : Nat) : b32DecDrain (5 + 5) B (5 + 5) = [B / 4 % 256] := rfl

theorem b32DecDrain_two_add (B : Nat) : b32DecDrain (2 + 5) B (2 + 5) = [] := rfl

theorem b32DecDrain_seven_add (B : Nat) : b32DecDrain (7 + 5) B (7 + 5) = [B / 16 % 256] := rfl

theorem b32DecDrain_four_add (B : Nat) : b32DecDrain (4 + 5) B (4 + 5) = [B / 2 % 256] := rfl

theorem b32DecDrain_one_add (B : Nat) : b32DecDrain (1 + 5) B (1 + 5) = [] := rfl

theorem b32DecDrain_six_add (B : Nat) : b32DecDrain (6 + 5) B (6 + 5) = [B / 8 % 256] := rfl

theorem b32DecDrain_three_add (B : Nat) : b32DecDrain (3 + 5) B (3 + 5) = [B / 1 % 256] := rfl

/-- Invariant for the base32 encode/decode loops, at a byte boundary: the
encoder still holds `ebits` low bits of `eb`, the decoder has already absorbed
`dbits` high bits into `db`, and together (when `ebits + dbits = 8`) they carry
exactly one in-flight byte. Decoding the encoder's remaining output yields that
in-flight byte followed by the remaining input bytes. -/
theorem b32_loop_roundtrip : ∀ (bytes : List Nat) (eb ebits db dbits : Nat),
    (∀ x ∈ bytes, x < 256) →
    (ebits = 0 ∧ dbits = 0 ∨ ebits = 3 ∧ dbits = 5 ∨ ebits = 1 ∧ dbits = 7
      ∨ ebits = 4 ∧ dbits = 4 ∨ ebits = 2 ∧ dbits = 6) →
    base32DecodeLoop (base32EncodeLoop bytes eb ebits) db dbits
      = some ((if ebits + dbits = 8
            then [db % 2 ^ dbits * 2 ^ ebits + eb % 2 ^ ebits] else [])
          ++ bytes) := by
  intro bytes
  induction bytes with
  | nil =>
    intro eb ebits db dbits hb hst
    rcases hst with ⟨rfl, rfl⟩ | ⟨rfl, rfl⟩ | ⟨rfl, rfl⟩ | ⟨rfl, rfl⟩ | ⟨rfl, rfl⟩
    · rfl
    · obtain ⟨hval, hws, -, -⟩ := base32Char_spec (eb * 4 % 32) (Nat.mod_lt _ (by norm_num))
      rw [show base32EncodeLoop [] eb 3 = [base32Char (eb * 4 % 32)] from rfl]
      rw [base32DecodeLoop_cons _ [] db 5 _ [] hws hval rfl]
      rw [b32DecDrain_five_add, if_pos (show 3 + 5 = 8 from rfl)]
      simp only [List.append_nil, List.singleton_append, Option.some.injEq, List.cons.injEq,
        and_true]
      omega
    · obtain ⟨hval, hws, -, -⟩ := base32Char_spec (eb * 16 % 32) (Nat.mod_lt _ (by norm_num))
      rw [show base32EncodeLoop [] eb 1 = [base32Char (eb * 16 % 32)] from rfl]
      rw [base32DecodeLoop_cons _ [] db 7 _ [] hws hval rfl]
      rw [b32DecDrain_seven_add, if_pos (show 1 + 7 = 8 from rfl)]
      simp only [List.append_nil, List.singleton_append, Option.some.injEq, List.cons.injEq,
        and_true]
      omega
    · obtain ⟨hval, hws, -, -⟩ := base32Char_spec (eb * 2 % 32) (Nat.mod_lt _ (by norm_num))
      rw [show base32EncodeLoop [] eb 4 = [base32Char (eb * 2 % 32)] from rfl]
      rw [base32DecodeLoop_cons _ [] db 4 _ [] hws hval rfl]
      rw [b32DecDrain_four_add, if_pos (show 4 + 4 = 8 from rfl)]
      simp only [List.append_nil, List.singleton_append, Option.some.injEq, List.cons.injEq,
        and_true]
      omega
    · obtain ⟨hval, hws, -, -⟩ := base32Char_spec (eb * 8 % 32) (Nat.mod_lt _ (by norm_num))
      rw [show base32EncodeLoop [] eb 2 = [base32Char (eb * 8 % 32)] from rfl]
      rw [base32DecodeLoop_cons _ [] db 6 _ [] hws hval rfl]
      rw [b32DecDrain_six_add, if_pos (show 2 + 6 = 8 from rfl)]
      simp only [List.append_nil, List.singleton_append, Option.some.injEq, List.cons.injEq,
        and_true]
      omega
  | cons b rest ih =>
    intro eb ebits db dbits hb hst
    have hbb : b < 256 := hb b (List.mem_cons_self b rest)
    have hbrest : ∀ x ∈ rest, x < 256 := fun x hx => hb x (List.mem_cons_of_mem b hx)
    rcases hst with ⟨rfl, rfl⟩ | ⟨rfl, rfl⟩ | ⟨rfl, rfl⟩ | ⟨rfl, rfl⟩ | ⟨rfl, rfl⟩
    · -- state (0,0): one character emitted, no byte completed yet
      obtain ⟨hval, hws, -, -⟩ :=
        base32Char_spec ((eb * 256 % 4294967296 + b) / 8 % 32) (Nat.mod_lt _ (by norm_num))
      rw [show base32EncodeLoop (b :: rest) eb 0
          = base32Char ((eb * 256 % 4294967296 + b) / 8 % 32)
            :: base32EncodeLoop rest (eb * 256 % 4294967296 + b) 3 from rfl]
      rw [base32DecodeLoop_cons _ _ db 0 _ _ hws hval
        (ih (eb * 256 % 4294967296 + b) 3 _ 5 hbrest (Or.inr (Or.inl ⟨rfl, rfl⟩)))]
      rw [b32DecDrain_zero_add, if_pos (show 3 + 5 = 8 from rfl),
        if_neg (show ¬ 0 + 0 = 8 by norm_num)]
      simp only [List.nil_append, List.singleton_append, Option.some.injEq, List.cons.injEq,
        and_true, true_and, eq_self_iff_true]
      omega
    · -- state (3,5): two characters emitted, previous in-flight byte completed
      obtain ⟨hval1, hws1, -, -⟩ :=
        base32Char_spec ((eb * 256 % 4294967296 + b) / 64 % 32) (Nat.mod_lt _ (by norm_num))
      obtain ⟨hval2, hws2, -, -⟩ :=
        base32Char_spec ((eb * 256 % 4294967296 + b) / 2 % 32) (Nat.mod_lt _ (by norm_num))
      rw [show base32EncodeLoop (b :: rest) eb 3
          = base32Char ((eb * 256 % 4294967296 + b) / 64 % 32)
            :: base32Char ((eb * 256 % 4294967296 + b) / 2 % 32)
            :: base32EncodeLoop rest (eb * 256 % 4294967296 + b) 1 from rfl]
      rw [base32DecodeLoop_cons _ _ db 5 _ _ hws1 hval1
        (base32DecodeLoop_cons _ _ _ 2 _ _ hws2 hval2
          (ih (eb * 256 % 4294967296 + b) 1 _ 7 hbrest
            (Or.inr (Or.inr (Or.inl ⟨rfl, rfl⟩)))))]
      rw [b32DecDrain_five_add, b32DecDrain_two_add, if_pos (show 1 + 7 = 8 from rfl),
        if_pos (show 3 + 5 = 8 from rfl)]
      simp only [List.nil_append, List.singleton_append, Option.some.injEq, List.cons.injEq,
        and_true, true_and, eq_self_iff_true]
      omega
    · -- state (1,7): one character emitted, previous in-flight byte completed
      obtain ⟨hval, hws, -, -⟩ :=
        base32Char_spec ((eb * 256 % 4294967296 + b) / 16 % 32) (Nat.mod_lt _ (by norm_num))
      rw [show base32EncodeLoop (b :: rest) eb 1
          = base32Char ((eb * 256 % 4294967296 + b) / 16 % 32)
            :: base32EncodeLoop rest (eb * 256 % 4294967296 + b) 4 from rfl]
      rw [base32DecodeLoop_cons _ _ db 7 _ _ hws hval
        (ih (eb * 256 % 4294967296 + b) 4 _ 4 hbrest
          (Or.inr (Or.inr (Or.inr (Or.inl ⟨rfl, rfl⟩)))))]
      rw [b32DecDrain_seven_add, if_pos (show 4 + 4 = 8 from rfl),
        if_pos (show 1 + 7 = 8 from rfl)]
      simp only [List.nil_append, List.singleton_append, Option.some.injEq, List.cons.injEq,
        and_true, true_and, eq_self_iff_true]
      omega
    · -- state (4,4): two characters emitted, previous in-flight byte completed
      obtain ⟨hval1, hws1, -, -⟩ :=
        base32Char_spec ((eb * 256 % 4294967296 + b) / 128 % 32) (Nat.mod_lt _ (by norm_num))
      obtain ⟨hval2, hws2, -, -⟩ :=
        base32Char_spec ((eb * 256 % 4294967296 + b) / 4 % 32) (Nat.mod_lt _ (by norm_num))
      rw [show base32EncodeLoop (b :: rest) eb 4
          = base32Char ((eb * 256 % 4294967296 + b) / 128 % 32)
            :: base32Char ((eb * 256 % 4294967296 + b) / 4 % 32)
            :: base32EncodeLoop rest (eb * 256 % 4294967296 + b) 2 from rfl]
      rw [base32DecodeLoop_cons _ _ db 4 _ _ hws1 hval1
        (base32DecodeLoop_cons _ _ _ 1 _ _ hws2 hval2
          (ih (eb * 256 % 4294967296 + b) 2 _ 6 hbrest
            (Or.inr (Or.inr (Or.inr (Or.inr ⟨rfl, rfl⟩))))))]
      rw [b32DecDrain_four_add, b32DecDrain_one_add, if_pos (show 2 + 6 = 8 from rfl),
        if_pos (show 4 + 4 = 8 from rfl)]
      simp only [List.nil_append, List.singleton_append, Option.some.injEq, List.cons.injEq,
        and_true, true_and, eq_self_iff_true]
      omega
    · -- state (2,6): two characters emitted; both the previous in-flight byte and b complete
      obtain ⟨hval1, hws1, -, -⟩ :=
        base32Char_spec ((eb * 256 % 4294967296 + b) / 32 % 32) (Nat.mod_lt _ (by norm_num))
      obtain ⟨hval2, hws2, -, -⟩ :=
        base32Char_spec ((eb * 256 % 4294967296 + b) / 1 % 32) (Nat.mod_lt _ (by norm_num))
      rw [show base32EncodeLoop (b :: rest) eb 2
          = base32Char ((eb * 256 % 4294967296 + b) / 32 % 32)
            :: base32Char ((eb * 256 % 4294967296 + b) / 1 % 32)
            :: base32EncodeLoop rest (eb * 256 % 4294967296 + b) 0 from rfl]
      rw [base32DecodeLoop_cons _ _ db 6 _ _ hws1 hval1
        (base32DecodeLoop_cons _ _ _ 3 _ _ hws2 hval2
          (ih (eb * 256 % 4294967296 + b) 0 _ 0 hbrest (Or.inl ⟨rfl, rfl⟩)))]
      rw [b32DecDrain_six_add, b32DecDrain_three_add, if_neg (show ¬ 0 + 0 = 8 by norm_num),
        if_pos (show 2 + 6 = 8 from rfl)]
      simp only [List.nil_append, List.singleton_append, Option.some.injEq, List.cons.injEq,
        and_true, true_and, eq_self_iff_true]
      omega

theorem list_map_id_of {α : Type} (f : α → α) :
    ∀ (l : List α), (∀ c ∈ l, f c = c) → l.map f = l
  | [], _ => rfl
  | c :: rest, h => by
    rw [List.map_cons, h c (List.mem_cons_self c rest),
      list_map_id_of f rest (fun x hx => h x (List.mem_cons_of_mem c hx))]

theorem stripTrailingEq_eq_self (cs : List Char) (h : ∀ c ∈ cs, ¬ c = '=') :
    stripTrailingEq cs = cs := by
  unfold stripTrailingEq
  rw [List.rdropWhile_eq_self_iff]
  intro hl
  simp [h _ (List.getLast_mem hl)]

/-- Every character the encoder can emit survives `toUpperCase` unchanged, is
not stripped as a trailing `=`, and is not skipped as whitespace. -/
theorem base32EncodeLoop_chars_clean (bytes : List Nat) (eb ebits : Nat) :
    ∀ c ∈ base32EncodeLoop bytes eb ebits,
      jsToUpperChar c = c ∧ ¬ c = '=' := by
  intro c hc
  obtain ⟨v, hv, rfl⟩ := base32EncodeLoop_chars bytes eb ebits c hc
  exact ⟨(base32Char_spec v hv).2.2.1, (base32Char_spec v hv).2.2.2⟩

/-- Decoding the encoder's output recovers the bytes (for genuine byte inputs,
as `Uint8Array` guarantees in the source). -/
theorem base32_roundtrip (bytes : List Nat) (h : ∀ x ∈ bytes, x < 256) :
    base32DecodeToBytes (base32EncodeBytes bytes) = some bytes := by
  have hclean := base32EncodeLoop_chars_clean bytes 0 0
  have hmap : (base32EncodeLoop bytes 0 0).map jsToUpperChar = base32EncodeLoop bytes 0 0 :=
    list_map_id_of jsToUpperChar _ (fun c hc => (hclean c hc).1)
  have hstrip : stripTrailingEq (base32EncodeLoop bytes 0 0) = base32EncodeLoop bytes 0 0 :=
    stripTrailingEq_eq_self _ (fun c hc => (hclean c hc).2)
  unfold base32DecodeToBytes base32EncodeBytes
  dsimp only
  rw [hmap, hstrip, b32_loop_roundtrip bytes 0 0 0 0 h (Or.inl ⟨rfl, rfl⟩)]
  rfl

/-! ## `encodeSignal` / `decodeSignal` (src/src/webrtc/peerClient.js lines 4-7
and 724-799)

The browser built-ins the pipeline runs through are parameters of the model:
`gzip`/`gunzip` stand for `CompressionStream`/`DecompressionStream` (`gunzip`
is partial since corrupt input throws), `atob` for the base64 built-in used by
the legacy `SHR0:`/`SHR1:` branches, and `compressionAvailable` for
`hasStreamCompression()`.  `Blob`/`Response` convert between the JSON text and
its UTF-8 bytes (`utf8EncodeList`/`utf8DecodeList`), and the encoder's
`try/catch` fallback never fires because the `gzip` parameter is total. -/

def SIGNAL_PREFIX_GZIP : List Char := ['S', 'H', 'R', '1', ':']

def SIGNAL_PREFIX_RAW : List Char := ['S', 'H', 'R', '0', ':']

def SIGNAL_PREFIX_GZIP_B32 : List Char := ['S', 'H', 'R', '2', ':']

def SIGNAL_PREFIX_RAW_B32 : List Char := ['S', 'H', 'R', '3', ':']

/-- `base64UrlDecodeToBytes`: undo the URL-safe substitutions, re-pad, and hand
off to the `atob`-based `base64ToBytes` (a browser built-in, so a parameter). -/
def base64UrlDecodeToBytes (atob : List Char → Option (List Nat)) (cs : List Char) :
    Option (List Nat) :=
  let b64 := cs.map (fun c => if c = '-' then '+' else if c = '_' then '/' else c)
  let pad := b64.length % 4
  if pad ≠ 0 then atob (b64 ++ List.replicate (4 - pad) '=') else atob b64

/-- The `webrtcConfig` fields `encodeSignal` reads. -/
structure WebrtcSignalConfig where
  useStun : Bool
  useUnorderedFileChannel : Bool
  useFastTransfer : Bool
  useSignalCompression : Bool
  useLanIpOverride : Bool
  lanIpOverride : String

/-- `PeerClient.encodeSignal`: validate the description, optionally rewrite
`.local` host candidates, serialize `\x7bt, s, c\x7d`, then emit
`SHR2:` + base32(gzip(utf8)) when compression is on and available, else
`SHR3:` + base32(utf8). -/
def encodeSignal (gzip : List Nat → List Nat) (compressionAvailable : Bool)
    (cfg : WebrtcSignalConfig) (descType sdp : String) : Option String :=
  if descType = "" ∨ sdp = "" then none
  else
    let sdp2 := if cfg.useLanIpOverride then
        rewriteMdnsHostCandidatesInSdp sdp cfg.lanIpOverride
      else sdp
    let payload := stringifySignalJson descType sdp2
      ⟨cfg.useStun, cfg.useUnorderedFileChannel, cfg.useFastTransfer⟩
    let bytes := utf8EncodeList payload
    if cfg.useSignalCompression ∧ compressionAvailable then
      some ⟨SIGNAL_PREFIX_GZIP_B32 ++ (base32EncodeBytes (gzip bytes)).data⟩
    else
      some ⟨SIGNAL_PREFIX_RAW_B32 ++ (base32EncodeBytes bytes).data⟩

/-- The shared tail of every `decodeSignal` branch: UTF-8-decode the bytes and
read the JSON (`Response.json()`), extracting `(t, s, c)`. -/
def decodeSignalBytesRaw : Option (List Nat) → Option (String × String × SignalCfg)
  | none => none
  | some bytes =>
    match utf8DecodeList bytes with
    | none => none
    | some chars => parseSignalJson chars

/-- The gzip branches additionally decompress first. -/
def decodeSignalBytesGzip (gunzip : List Nat → Option (List Nat)) :
    Option (List Nat) → Option (String × String × SignalCfg)
  | none => none
  | some bytes =>
    match gunzip bytes with
    | none => none
    | some bytes2 => decodeSignalBytesRaw (some bytes2)

/-- `PeerClient.decodeSignal`: trim, reject empty input, dispatch on the four
prefixes in source order (`SHR2`, `SHR3`, `SHR1`, `SHR0`), reject unknown
prefixes and gzip prefixes without decompression support. -/
def decodeSignal (gunzip : List Nat → Option (List Nat))
    (atob : List Char → Option (List Nat)) (compressionAvailable : Bool)
    (code : String) : Option (String × String × SignalCfg) :=
  let trimmed := jsTrimList code.data
  if trimmed = [] then none
  else if List.isPrefixOf SIGNAL_PREFIX_GZIP_B32 trimmed then
    if compressionAvailable then
      decodeSignalBytesGzip gunzip (base32DecodeToBytes ⟨List.drop 5 trimmed⟩)
    else none
  else if List.isPrefixOf SIGNAL_PREFIX_RAW_B32 trimmed then
    decodeSignalBytesRaw (base32DecodeToBytes ⟨List.drop 5 trimmed⟩)
  else if List.isPrefixOf SIGNAL_PREFIX_GZIP trimmed then
    if compressionAvailable then
      decodeSignalBytesGzip gunzip (base64UrlDecodeToBytes atob (List.drop 5 trimmed))
    else none
  else if List.isPrefixOf SIGNAL_PREFIX_RAW trimmed then
    decodeSignalBytesRaw (base64UrlDecodeToBytes atob (List.drop 5 trimmed))
  else none

theorem isPrefixOf_append_fixed (p l rest : List Char) (hp : p.length = l.length) :
    List.isPrefixOf p (l ++ rest) = true ↔ p = l := by
  rw [List.isPrefixOf_iff_prefix, List.prefix_iff_eq_take, hp, List.take_left]

theorem signalPrefixGzipB32_not_ws : ∀ c ∈ SIGNAL_PREFIX_GZIP_B32, jsWhitespace c = false := by
  decide

theorem signalPrefixRawB32_not_ws : ∀ c ∈ SIGNAL_PREFIX_RAW_B32, jsWhitespace c = false := by
  decide

theorem base32Char_not_jsWs : ∀ v, v < 32 → jsWhitespace (base32Char v) = false := by
  decide

/-- Trimming does not touch an encoder-produced signal string. -/
theorem jsTrimList_signal (p : List Char) (hp : ∀ c ∈ p, jsWhitespace c = false)
    (bytes : List Nat) :
    jsTrimList (p ++ base32EncodeLoop bytes 0 0) = p ++ base32EncodeLoop bytes 0 0 := by
  apply jsTrimList_eq_self
  intro c hc
  rcases List.mem_append.mp hc with h | h
  · exact hp c h
  · obtain ⟨v, hv, rfl⟩ := base32EncodeLoop_chars bytes 0 0 c h
    exact base32Char_not_jsWs v hv

/-- Dispatch of `decodeSignal` on an encoder-shaped `SHR2:` string. -/
theorem decodeSignal_b32_gzip (gunzip : List Nat → Option (List Nat))
    (atob : List Char → Option (List Nat)) (bytes : List Nat) :
    decodeSignal gunzip atob true ⟨SIGNAL_PREFIX_GZIP_B32 ++ (base32EncodeBytes bytes).data⟩
      = decodeSignalBytesGzip gunzip (base32DecodeToBytes (base32EncodeBytes bytes)) := by
  unfold decodeSignal
  dsimp only
  rw [show (base32EncodeBytes bytes).data = base32EncodeLoop bytes 0 0 from rfl]
  rw [jsTrimList_signal _ signalPrefixGzipB32_not_ws bytes]
  rw [if_neg (show ¬ (SIGNAL_PREFIX_GZIP_B32 ++ base32EncodeLoop bytes 0 0 = []) by
    simp [SIGNAL_PREFIX_GZIP_B32])]
  rw [if_pos ((isPrefixOf_append_fixed _ _ _ rfl).mpr rfl)]
  rw [if_pos rfl]
  rw [show List.drop 5 (SIGNAL_PREFIX_GZIP_B32 ++ base32EncodeLoop bytes 0 0)
      = base32EncodeLoop bytes 0 0 from List.drop_left' rfl]
  rfl

/-- Dispatch of `decodeSignal` on an encoder-shaped `SHR3:` string. -/
theorem decodeSignal_b32_raw (gunzip : List Nat → Option (List Nat))
    (atob : List Char → Option (List Nat)) (compressionAvailable : Bool) (bytes : List Nat) :
    decodeSignal gunzip atob compressionAvailable
        ⟨SIGNAL_PREFIX_RAW_B32 ++ (base32EncodeBytes bytes).data⟩
      = decodeSignalBytesRaw (base32DecodeToBytes (base32EncodeBytes bytes)) := by
  unfold decodeSignal
  dsimp only
  rw [show (base32EncodeBytes bytes).data = base32EncodeLoop bytes 0 0 from rfl]
  rw [jsTrimList_signal _ signalPrefixRawB32_not_ws bytes]
  rw [if_neg (show ¬ (SIGNAL_PREFIX_RAW_B32 ++ base32EncodeLoop bytes 0 0 = []) by
    simp [SIGNAL_PREFIX_RAW_B32])]
  rw [if_neg (show ¬ (List.isPrefixOf SIGNAL_PREFIX_GZIP_B32
      (SIGNAL_PREFIX_RAW_B32 ++ base32EncodeLoop bytes 0 0) = true) from
    fun h => absurd ((isPrefixOf_append_fixed SIGNAL_PREFIX_GZIP_B32 SIGNAL_PREFIX_RAW_B32
      (base32EncodeLoop bytes 0 0) rfl).mp h) (by decide))]
  rw [if_pos ((isPrefixOf_append_fixed _ _ _ rfl).mpr rfl)]
  rw [show List.drop 5 (SIGNAL_PREFIX_RAW_B32 ++ base32EncodeLoop bytes 0 0)
      = base32EncodeLoop bytes 0 0 from List.drop_left' rfl]
  rfl

theorem decodeSignalBytesGzip_some (gunzip : List Nat → Option (List Nat))
    (b b2 : List Nat) (h : gunzip b = some b2) :
    decodeSignalBytesGzip gunzip (some b) = decodeSignalBytesRaw (some b2) := by
  show (match gunzip b with
    | none => none
    | some bytes2 => decodeSignalBytesRaw (some bytes2)) = decodeSignalBytesRaw (some b2)
  rw [h]

theorem decodeSignalBytesRaw_utf8 (cs : List Char) :
    decodeSignalBytesRaw (some (utf8EncodeList cs)) = parseSignalJson cs := by
  show (match utf8DecodeList (utf8EncodeList cs) with
    | none => none
    | some chars => parseSignalJson chars) = parseSignalJson cs
  rw [utf8_roundtrip]

/-- C2 (amended): for every session description and configuration, and any
compression environment in which decompression inverts compression on byte
streams, decoding the string produced by `encodeSignal` succeeds and recovers
the `(type, description, cfg)` triple the encoder embedded — whose description
is the input `sdp` rewritten by `rewriteMdnsHostCandidatesInSdp` when the LAN
IP override is enabled, and the input `sdp` byte-identical otherwise.  In
particular decode is a left inverse of encode whenever the override is
disabled, for both prefixes the encoder can emit (`SHR2:` gzip+base32 when
compression is available and enabled, `SHR3:` raw+base32 otherwise). -/
theorem decodeSignal_encodeSignal
    (gzip : List Nat → List Nat) (gunzip : List Nat → Option (List Nat))
    (atob : List Char → Option (List Nat))
    (compressionAvailable : Bool) (cfg : WebrtcSignalConfig)
    (descType sdp out : String)
    (hinv : ∀ bs, (∀ x ∈ bs, x < 256) → gunzip (gzip bs) = some bs)
    (hgz : ∀ bs, (∀ x ∈ bs, x < 256) → ∀ x ∈ gzip bs, x < 256)
    (henc : encodeSignal gzip compressionAvailable cfg descType sdp = some out) :
    decodeSignal gunzip atob compressionAvailable out
      = some (descType,
          (if cfg.useLanIpOverride then rewriteMdnsHostCandidatesInSdp sdp cfg.lanIpOverride
            else sdp),
          ⟨cfg.useStun, cfg.useUnorderedFileChannel, cfg.useFastTransfer⟩) := by
  unfold encodeSignal at henc
  by_cases h0 : descType = "" ∨ sdp = ""
  · rw [if_pos h0] at henc
    exact absurd henc (by simp)
  rw [if_neg h0] at henc
  dsimp only at henc
  by_cases hc : cfg.useSignalCompression = true ∧ compressionAvailable = true
  · rw [if_pos hc] at henc
    have hout := (Option.some.inj henc).symm
    subst hout
    rw [hc.2, decodeSignal_b32_gzip]
    rw [base32_roundtrip _ (hgz _ (utf8EncodeList_bytes_lt _))]
    rw [decodeSignalBytesGzip_some gunzip _ _ (hinv _ (utf8EncodeList_bytes_lt _))]
    rw [decodeSignalBytesRaw_utf8, parseSignalJson_stringify]
  · rw [if_neg hc] at henc
    have hout := (Option.some.inj henc).symm
    subst hout
    rw [decodeSignal_b32_raw]
    rw [base32_roundtrip _ (utf8EncodeList_bytes_lt _)]
    rw [decodeSignalBytesRaw_utf8, parseSignalJson_stringify]

def wcfgExample : WebrtcSignalConfig := ⟨true, false, true, true, false, ""⟩

theorem decodeSignal_encodeSignal_witness :
    decodeSignal (fun bs => some bs) (fun _ => none) true
        ((encodeSignal (fun bs => bs) true wcfgExample "offer" "v=0").getD "")
      = some ("offer", "v=0", ⟨true, false, true⟩) :=
  decodeSignal_encodeSignal (fun bs => bs) (fun bs => some bs) (fun _ => none) true
    wcfgExample "offer" "v=0" _ (fun _ _ => rfl) (fun _ h => h) rfl

def lanSdpExample : String := "a=candidate:1 1 udp 2 x.local 9 typ host"

def lanCfgExample : WebrtcSignalConfig := ⟨false, false, false, false, true, "10.0.0.5"⟩

set_option maxRecDepth 4000 in
/-- C2 counterexample to the unamended claim: with the LAN IP override enabled,
`encodeSignal` rewrites the `.local` host candidate before embedding the
description, so decoding its output does not return the session description
that was passed in — decode is not a left inverse of encode on the
description component. -/
theorem decodeSignal_encodeSignal_counterexample :
    decodeSignal (fun bs => some bs) (fun _ => none) false
        ((encodeSignal (fun bs => bs) false lanCfgExample "offer" lanSdpExample).getD "")
      ≠ some ("offer", lanSdpExample, ⟨false, false, false⟩) := by
  decide

end ShareFile
